import Mathlib

/-!
# strix: dual-track string extraction (`src/strix.c`)

A shallow embedding of `strix.c` (the buffer, the classifier, the two-track
scanner of `process_file`, and the argument handling of `main`) and a
verification of its specification.

Modelling conventions.

* A byte (`unsigned char`) is a `Nat`; the bytes of a file are values below 256,
  but no definition depends on that bound.
* A `char` stored in a buffer is the byte it was cast from.  The program only
  stores bytes accepted by `is_printable` (at most `0x7E`), for which the cast
  `(char)b` preserves the value.
* `size_t` and `unsigned long long` counters (`len`, `cap`, `global_offset`,
  `start_offset`) are natural numbers: they count bytes of the input and of the
  buffer, which stay below `2^64` for every stream the program can read to its
  end.  The conversion of the signed `int min_len` to `size_t` in the comparisons
  `len >= cfg->min_len` is modelled explicitly by `to_size_t`.
* `malloc` and `realloc` are assumed to succeed (the `exit(1)` branches are not
  modelled).  The indeterminate content of newly allocated cells is given by an
  arbitrary function `fresh` from cell index to byte; every result holds for
  every `fresh`.
* Standard output is the list of matches handed to `print_match`, in order.  Each
  is recorded with the track of the call site, the `start_offset` of the buffer,
  and the NUL-terminated string found in its storage; the radix and file-name
  decorations of the printed line are presentation only.
* The successive results of `fread` are a list of chunks; the end of the list is
  the end of the stream (`fread` returning 0).
* The argument vector of `main` is a list of strings; the library function
  `atoi` is modelled as `(int) strtol`, with a 32-bit result; a run of `main` is its return value
  and the list of its calls of `process_file`.
-/

namespace Strix

/-! ## Embedding of the source -/

/-- Chunk size of the read loop: `#define BUF_SIZE 8192`. -/
def BUF_SIZE : Nat := 8192

/-- The struct `Config`: `min_len` is a C `int`; `offset_format` is `0` or the
character code of `d`, `o` or `x`. -/
structure Config where
  min_len : Int
  offset_format : Nat
  print_filename : Bool
  deriving DecidableEq

/-- The struct `StrBuf`.  The field `data` is the content of the allocated
storage: cell `i` of the C array is `data[i]`, and `data.length` is the allocated
size. -/
structure StrBuf where
  data : List Nat
  len : Nat
  cap : Nat
  start_offset : Nat
  deriving DecidableEq

/-- Value of an `int` after the usual arithmetic conversion to the 64-bit
unsigned `size_t`: negative values wrap around, others are unchanged. -/
def to_size_t (x : Int) : Nat :=
  if x < 0 then (x + 2 ^ 64).toNat else x.toNat

/-- The function `init_buf`: capacity 128, fresh storage, length 0, terminator
written at index 0, `start_offset` 0. -/
def init_buf (fresh : Nat → Nat) : StrBuf :=
  { cap := 128
    data := ((List.range 128).map fresh).set 0 0
    len := 0
    start_offset := 0 }

/-- The function `append_buf`: when `len + 1 >= cap` the capacity is doubled and
the storage reallocated (old cells kept, new cells indeterminate); then `c` is
written at index `len`, `len` is incremented and the terminator is written at the
new `len`. -/
def append_buf (fresh : Nat → Nat) (b : StrBuf) (c : Nat) : StrBuf :=
  let b1 : StrBuf :=
    if b.len + 1 ≥ b.cap then
      { b with cap := b.cap * 2
               data := b.data ++ (List.range' b.cap (b.cap * 2 - b.cap)).map fresh }
    else b
  let b2 : StrBuf := { b1 with data := b1.data.set b1.len c, len := b1.len + 1 }
  { b2 with data := b2.data.set b2.len 0 }

/-- The function `reset_buf`: length 0 and terminator at index 0. -/
def reset_buf (b : StrBuf) : StrBuf :=
  { b with len := 0, data := b.data.set 0 0 }

/-- The function `is_printable`: `c >= 0x20 && c <= 0x7E`. -/
def is_printable (c : Nat) : Bool :=
  decide (c ≥ 0x20) && decide (c ≤ 0x7E)

/-- The two families of call sites of `print_match`: the ASCII track and the
UTF-16LE track. -/
inductive Track where
  | ascii
  | utf16
  deriving DecidableEq

/-- One emitted match: which track reported it, the offset and the text. -/
structure Match where
  track : Track
  start_offset : Nat
  text : List Nat
  deriving DecidableEq

/-- The string that `printf("%s", data)` prints: the cells before the first
NUL. -/
def c_str (data : List Nat) : List Nat :=
  data.takeWhile (fun c => c != 0)

/-- The function `print_match`, reduced to the match it reports: the
`start_offset` and the NUL-terminated string in `b->data`. -/
def print_match (t : Track) (b : StrBuf) : Match :=
  { track := t, start_offset := b.start_offset, text := c_str b.data }

/-- Local state of `process_file` inside the read loop (all but
`global_offset`), together with the output written so far. -/
structure ScanState where
  ascii_buf : StrBuf
  utf16_buf : StrBuf
  utf16_state : Nat
  utf16_pending_char : Nat
  utf16_pending_start : Nat
  out : List Match
  deriving DecidableEq

/-- The block `--- ASCII Logic ---` of the loop body, for byte `b` at offset
`current_pos`. -/
def ascii_logic (fresh : Nat → Nat) (cfg : Config) (s : ScanState) (b current_pos : Nat) :
    ScanState :=
  if is_printable b then
    let ab : StrBuf :=
      if s.ascii_buf.len = 0 then { s.ascii_buf with start_offset := current_pos }
      else s.ascii_buf
    { s with ascii_buf := append_buf fresh ab b }
  else
    let out : List Match :=
      if s.ascii_buf.len ≥ to_size_t cfg.min_len then s.out ++ [print_match Track.ascii s.ascii_buf]
      else s.out
    { s with out := out, ascii_buf := reset_buf s.ascii_buf }

/-- The block `--- UTF-16LE Logic ---` of the loop body, for byte `b` at offset
`current_pos`. -/
def utf16_logic (fresh : Nat → Nat) (cfg : Config) (s : ScanState) (b current_pos : Nat) :
    ScanState :=
  if s.utf16_state = 0 then
    if is_printable b then
      { s with utf16_pending_char := b, utf16_pending_start := current_pos, utf16_state := 1 }
    else
      let out : List Match :=
        if s.utf16_buf.len ≥ to_size_t cfg.min_len then
          s.out ++ [print_match Track.utf16 s.utf16_buf]
        else s.out
      { s with out := out, utf16_buf := reset_buf s.utf16_buf }
  else
    if b = 0x00 then
      let ub : StrBuf :=
        if s.utf16_buf.len = 0 then { s.utf16_buf with start_offset := s.utf16_pending_start }
        else s.utf16_buf
      { s with utf16_buf := append_buf fresh ub s.utf16_pending_char, utf16_state := 0 }
    else
      let out : List Match :=
        if s.utf16_buf.len ≥ to_size_t cfg.min_len then
          s.out ++ [print_match Track.utf16 s.utf16_buf]
        else s.out
      let s1 : ScanState := { s with out := out, utf16_buf := reset_buf s.utf16_buf }
      let s2 : ScanState := { s1 with utf16_state := 0 }
      if is_printable b then
        { s2 with utf16_pending_char := b, utf16_pending_start := current_pos, utf16_state := 1 }
      else s2

/-- Body of the `for` loop: the byte is fed to the ASCII logic, then to the
UTF-16LE logic. -/
def loop_body (fresh : Nat → Nat) (cfg : Config) (s : ScanState) (b current_pos : Nat) :
    ScanState :=
  utf16_logic fresh cfg (ascii_logic fresh cfg s b current_pos) b current_pos

/-- The loop `for (i = 0; i < n; i++)` over one chunk, from index `i` on; the
list holds `buffer[i..n)`, and the body receives the byte and
`current_pos = global_offset + i`. -/
def for_loop {σ : Type} (body : σ → Nat → Nat → σ) (global_offset : Nat) :
    Nat → List Nat → σ → σ
  | _, [], s => s
  | i, b :: rest, s => for_loop body global_offset (i + 1) rest (body s b (global_offset + i))

/-- The loop `while ((n = fread(...)) > 0)`: each non-empty chunk is run through
the `for` loop and `global_offset` advances by its size; a read of 0 bytes, or the
end of the list of reads, ends the loop. -/
def while_loop {σ : Type} (body : σ → Nat → Nat → σ) :
    List (List Nat) → Nat → σ → σ
  | [], _, s => s
  | buffer :: reads, global_offset, s =>
    if buffer.length > 0 then
      while_loop body reads (global_offset + buffer.length)
        (for_loop body global_offset 0 buffer s)
    else s

/-- State of `process_file` on entry to the read loop. -/
def initial_state (fresh : Nat → Nat) : ScanState :=
  { ascii_buf := init_buf fresh
    utf16_buf := init_buf fresh
    utf16_state := 0
    utf16_pending_char := 0
    utf16_pending_start := 0
    out := [] }

/-- State of `process_file` when the read loop ends. -/
def scan_loop (fresh : Nat → Nat) (cfg : Config) (reads : List (List Nat)) : ScanState :=
  while_loop (loop_body fresh cfg) reads 0 (initial_state fresh)

/-- The block `End of file cleanup`: both buffers are reported if long enough,
the ASCII one first. -/
def end_of_file_cleanup (cfg : Config) (s : ScanState) : List Match :=
  let out1 : List Match :=
    if s.ascii_buf.len ≥ to_size_t cfg.min_len then s.out ++ [print_match Track.ascii s.ascii_buf]
    else s.out
  if s.utf16_buf.len ≥ to_size_t cfg.min_len then out1 ++ [print_match Track.utf16 s.utf16_buf]
  else out1

/-- The function `process_file`, as the list of matches it prints.  `fp` is the
result of `fopen`: `none` when the file cannot be opened (nothing is printed),
otherwise the successive results of `fread`. -/
def process_file (fresh : Nat → Nat) (cfg : Config) (fp : Option (List (List Nat))) :
    List Match :=
  match fp with
  | none => []
  | some reads => end_of_file_cleanup cfg (scan_loop fresh cfg reads)

/-! ## Embedding of `main`

The argument vector is a list of strings (`argv[0]` first).  The C library
function `atoi` is not part of the repository; it is modelled as the GNU C
library defines it, with a 32-bit `int` result.  The outcome of `main` is its return value together with the calls
`process_file(files[i], &cfg)` it makes, in order. -/

/-- The C library predicate `isspace` in the C locale: space, and the control
characters 9 to 13 (tab, newline, vertical tab, form feed, carriage return). -/
def isspace (ch : Char) : Bool :=
  decide (ch.toNat = 32) || (decide (9 ≤ ch.toNat) && decide (ch.toNat ≤ 13))

/-- The C library predicate `isdigit`: the characters `0` to `9`. -/
def isdigit (ch : Char) : Bool :=
  decide (48 ≤ ch.toNat) && decide (ch.toNat ≤ 57)

/-- Value of the longest run of decimal digits at the head of `cs`, continuing
the value `acc` read so far. -/
def atoi_digits : List Char → Nat → Nat
  | [], acc => acc
  | ch :: cs, acc => if isdigit ch then atoi_digits cs (acc * 10 + (ch.toNat - 48)) else acc

/-- The number that `strtol` reads at the head of the string, before any range
check: leading white space is skipped, an optional sign is read, then the
longest run of decimal digits; 0 when there is no digit. -/
def atoi_value (s : String) : Int :=
  match s.data.dropWhile isspace with
  | '-' :: cs => -((atoi_digits cs 0 : Nat) : Int)
  | '+' :: cs => ((atoi_digits cs 0 : Nat) : Int)
  | cs => ((atoi_digits cs 0 : Nat) : Int)

/-- The range check of `strtol` for the 64-bit `long`: a value above `LONG_MAX`
is replaced by `LONG_MAX` and a value below `LONG_MIN` by `LONG_MIN`. -/
def strtol_clamp (x : Int) : Int :=
  if x > 2 ^ 63 - 1 then 2 ^ 63 - 1 else if x < -(2 ^ 63) then -(2 ^ 63) else x

/-- Conversion of a `long` to the 32-bit `int`: the value is reduced modulo
`2^32` into the range `-2^31 .. 2^31 - 1`. -/
def long_to_int (x : Int) : Int :=
  (x + 2 ^ 31) % 2 ^ 32 - 2 ^ 31

/-- The C library function `atoi`, as the program gets it from the GNU C library:
`(int) strtol(s, NULL, 10)`.  The value read is brought into the range of `long`
and then converted to `int`, so the result is always a 32-bit `int`; it is the
number written in `s` whenever that number fits an `int`, and 0 when `s` does
not begin with a number. -/
def atoi (s : String) : Int :=
  long_to_int (strtol_clamp (atoi_value s))

/-- The first character `s[0]` of a C string: the code of its first character,
or 0 (the terminator) when the string is empty. -/
def first_char (s : String) : Nat :=
  match s.data with
  | [] => 0
  | ch :: _ => ch.toNat

/-- The argument loop `for (int i = 1; i < argc; i++)` of `main`, over the
arguments not yet read, with the configuration and the files collected so far.
The result is `Except.error code` when the loop executes `return code`, and the
final configuration and file list otherwise. -/
def main_arg_loop : List String → Config → List String → Except Int (Config × List String)
  | [], cfg, files => Except.ok (cfg, files)
  | arg :: rest, cfg, files =>
    if first_char arg = 45 then
      if arg = "-n" then
        match rest with
        | value :: rest2 =>
          let m := atoi value
          let m := if m < 1 then 1 else m
          main_arg_loop rest2 { cfg with min_len := m } files
        | [] => Except.error 1
      else if arg = "-t" then
        match rest with
        | value :: rest2 =>
          let fmt := first_char value
          if fmt = 111 ∨ fmt = 100 ∨ fmt = 120 then
            main_arg_loop rest2 { cfg with offset_format := fmt } files
          else Except.error 1
        | [] => Except.error 1
      else if arg = "-f" then
        main_arg_loop rest { cfg with print_filename := true } files
      else if arg = "-h" ∨ arg = "--help" then Except.error 0
      else Except.error 1
    else main_arg_loop rest cfg (files ++ [arg])

/-- What a run of `main` does: its return value and the calls
`process_file(files[i], &cfg)` it made, in order. -/
structure MainOutcome where
  exit_code : Int
  scanned : List (String × Config)
  deriving DecidableEq

/-- The function `main`: defaults `min_len = 4`, no offset column, no file name;
the argument loop; exit code 1 when no file was named; otherwise one call of
`process_file` per file, in argument order, and exit code 0. -/
def main (argv : List String) : MainOutcome :=
  match main_arg_loop argv.tail { min_len := 4, offset_format := 0, print_filename := false } [] with
  | Except.error code => { exit_code := code, scanned := [] }
  | Except.ok (cfg, files) =>
    if files.length = 0 then { exit_code := 1, scanned := [] }
    else { exit_code := 0, scanned := files.map (fun f => (f, cfg)) }

/-! ## Vocabulary of the specification -/

/-- The matches of one track, as (start offset, text) pairs, in output order. -/
def matches_of (t : Track) (out : List Match) : List (Nat × List Nat) :=
  (out.filter (fun m => decide (m.track = t))).map (fun m => (m.start_offset, m.text))

/-- The byte at offset `j` exists and is printable. -/
def printable_at (bytes : List Nat) (j : Nat) : Bool :=
  match bytes[j]? with
  | some c => is_printable c
  | none => false

/-- A printable byte at offset `j` immediately followed by `0x00`. -/
def pair_at (bytes : List Nat) (j : Nat) : Bool :=
  printable_at bytes j && decide (bytes[j + 1]? = some 0)

/-- The (offset, byte) pairs that the read loop of `process_file` hands to its
body, in order: the loops of the source run with a body that only records its
arguments `current_pos` and `b`. -/
def fed_bytes (reads : List (List Nat)) : List (Nat × Nat) :=
  while_loop (fun acc b current_pos => acc ++ [(current_pos, b)]) reads 0 []

/-- The text `txt` is a maximal run of printable bytes of `bytes` starting at
offset `s`: it is not empty, it is the content of `bytes` at offsets
`s .. s + txt.length - 1`, all its bytes are printable, the byte before offset
`s` (if any) is not printable, and the byte after the run (if any) is not
printable. -/
def IsAsciiRun (bytes : List Nat) (s : Nat) (txt : List Nat) : Prop :=
  txt ≠ [] ∧
  (∀ j, j < txt.length → bytes[s + j]? = txt[j]?) ∧
  (∀ c ∈ txt, is_printable c = true) ∧
  (∀ j, j + 1 = s → printable_at bytes j = false) ∧
  printable_at bytes (s + txt.length) = false

/-- The text `txt` is a maximal run of adjacent (printable, `0x00`) pairs of
`bytes` starting at offset `s`: it is not empty, for every `j` the byte at offset
`s + 2j` is the printable character `txt[j]` and the byte at offset `s + 2j + 1`
is `0x00`, there is no pair at offset `s - 2`, and there is no pair right after
the last one. -/
def IsPairRun (bytes : List Nat) (s : Nat) (txt : List Nat) : Prop :=
  txt ≠ [] ∧
  (∀ j, j < txt.length → bytes[s + 2 * j]? = txt[j]? ∧ bytes[s + 2 * j + 1]? = some 0) ∧
  (∀ c ∈ txt, is_printable c = true) ∧
  (∀ j, j + 2 = s → pair_at bytes j = false) ∧
  pair_at bytes (s + 2 * txt.length) = false

/-- The argument `s` of `-n` begins with a number as `atoi` reads it: after
optional white space and an optional sign comes a decimal digit. -/
def starts_number (s : String) : Bool :=
  match s.data.dropWhile isspace with
  | '-' :: cs => (cs.head?.map isdigit).getD false
  | '+' :: cs => (cs.head?.map isdigit).getD false
  | cs => (cs.head?.map isdigit).getD false

/-! ## The two-byte transitions in the words of the specification -/

/-- The `ExpectChar` transition as the specification words it: a printable byte
becomes the pending character and the machine moves to `ExpectNull` (state 1);
any other byte breaks the run: the candidate is emitted if it has at least
`min_len` characters, it is reset, and the machine remains in `ExpectChar`. -/
def spec_expect_char (cfg : Config) (s : ScanState) (b current_pos : Nat) : ScanState :=
  if is_printable b then
    { s with utf16_pending_char := b, utf16_pending_start := current_pos, utf16_state := 1 }
  else
    { s with
      out := if s.utf16_buf.len ≥ to_size_t cfg.min_len then
          s.out ++ [print_match Track.utf16 s.utf16_buf] else s.out
      utf16_buf := reset_buf s.utf16_buf }

/-- The first half of the pairing-failure transition as the specification words
it: the candidate is emitted if it has at least `min_len` characters and is
reset; the machine is then back in `ExpectChar` (state 0), ready for the byte to
be classified again. -/
def spec_flush_and_reset (cfg : Config) (s : ScanState) : ScanState :=
  { s with
    out := if s.utf16_buf.len ≥ to_size_t cfg.min_len then
        s.out ++ [print_match Track.utf16 s.utf16_buf] else s.out
    utf16_buf := reset_buf s.utf16_buf
    utf16_state := 0 }

/-- State of the read loop of `process_file` after the bytes `p` of the stream
have been consumed, whatever the chunks they arrived in. -/
def state_after (fresh : Nat → Nat) (cfg : Config) (p : List Nat) : ScanState :=
  for_loop (loop_body fresh cfg) 0 0 p (initial_state fresh)

/-- Well-formedness of a buffer: the storage has `cap` cells, `len + 1 ≤ cap`,
the capacity is `128 * 2^k`, the cell at index `len` holds the terminator, and
every cell below `len` holds a byte in `0x20 .. 0x7E`. -/
def StrBufOK (b : StrBuf) : Prop :=
  b.data.length = b.cap ∧ b.len + 1 ≤ b.cap ∧ (∃ k, b.cap = 128 * 2 ^ k) ∧
    b.data[b.len]? = some 0 ∧
    ∀ j, j < b.len → ∃ ch, b.data[j]? = some ch ∧ 0x20 ≤ ch ∧ ch ≤ 0x7E

/-! ## Reference scanners

Two list-level machines, one per track, used to reason about the tracks
separately.  The embedding above is proved to compute the same matches. -/

/-- State of the single-byte reference track: the candidate text, its start
offset and the matches reported so far. -/
structure AsciiTrack where
  cand : List Nat
  start : Nat
  out : List (Nat × List Nat)
  deriving DecidableEq

/-- One byte of the single-byte reference track, with threshold `m`. -/
def ascii_track_step (m : Nat) (a : AsciiTrack) (b pos : Nat) : AsciiTrack :=
  if is_printable b then
    { a with cand := a.cand ++ [b], start := if a.cand.length = 0 then pos else a.start }
  else
    { a with cand := [], out := if m ≤ a.cand.length then a.out ++ [(a.start, a.cand)] else a.out }

/-- Matches of the single-byte reference track once the stream has ended. -/
def ascii_track_flush (m : Nat) (a : AsciiTrack) : List (Nat × List Nat) :=
  if m ≤ a.cand.length then a.out ++ [(a.start, a.cand)] else a.out

/-- State of the two-byte reference track. -/
structure PairTrack where
  state : Nat
  pending_char : Nat
  pending_start : Nat
  cand : List Nat
  start : Nat
  out : List (Nat × List Nat)
  deriving DecidableEq

/-- One byte of the two-byte reference track, with threshold `m`. -/
def pair_track_step (m : Nat) (u : PairTrack) (b pos : Nat) : PairTrack :=
  if u.state = 0 then
    if is_printable b then
      { u with pending_char := b, pending_start := pos, state := 1 }
    else
      { u with cand := [], out := if m ≤ u.cand.length then u.out ++ [(u.start, u.cand)] else u.out }
  else
    if b = 0 then
      { u with cand := u.cand ++ [u.pending_char]
               start := if u.cand.length = 0 then u.pending_start else u.start
               state := 0 }
    else
      let out := if m ≤ u.cand.length then u.out ++ [(u.start, u.cand)] else u.out
      if is_printable b then
        { u with cand := [], out := out, pending_char := b, pending_start := pos, state := 1 }
      else
        { u with cand := [], out := out, state := 0 }

/-- Matches of the two-byte reference track once the stream has ended. -/
def pair_track_flush (m : Nat) (u : PairTrack) : List (Nat × List Nat) :=
  if m ≤ u.cand.length then u.out ++ [(u.start, u.cand)] else u.out

/-- The buffer `b` holds the text `txt`: its storage is `txt`, then the
terminator, then unused cells; `len` is the length of `txt`, and the storage has
`cap` cells. -/
def BufHolds (b : StrBuf) (txt : List Nat) : Prop :=
  (∃ rest, b.data = txt ++ 0 :: rest) ∧ b.data.length = b.cap ∧ b.len = txt.length ∧
    ∀ c ∈ txt, c ≠ 0

/-- The embedded state `s` and the single-byte reference track `a` agree. -/
def AsciiSim (s : ScanState) (a : AsciiTrack) : Prop :=
  BufHolds s.ascii_buf a.cand ∧ s.ascii_buf.start_offset = a.start ∧
    matches_of Track.ascii s.out = a.out ∧ ∀ c ∈ a.cand, is_printable c = true

/-- The embedded state `s` and the two-byte reference track `u` agree. -/
def PairSim (s : ScanState) (u : PairTrack) : Prop :=
  BufHolds s.utf16_buf u.cand ∧ s.utf16_buf.start_offset = u.start ∧
    matches_of Track.utf16 s.out = u.out ∧ s.utf16_state = u.state ∧
    s.utf16_pending_char = u.pending_char ∧ s.utf16_pending_start = u.pending_start ∧
    (∀ c ∈ u.cand, is_printable c = true) ∧
    (u.state ≠ 0 → is_printable u.pending_char = true)

/-- Initial state of the single-byte reference track. -/
def ascii_track_init : AsciiTrack :=
  { cand := [], start := 0, out := [] }

/-- Initial state of the two-byte reference track. -/
def pair_track_init : PairTrack :=
  { state := 0, pending_char := 0, pending_start := 0, cand := [], start := 0, out := [] }

/-- State of the single-byte reference track after the bytes `bytes`, numbered
from offset 0. -/
def ascii_track_run (m : Nat) (bytes : List Nat) : AsciiTrack :=
  for_loop (ascii_track_step m) 0 0 bytes ascii_track_init

/-- State of the two-byte reference track after the bytes `bytes`, numbered from
offset 0. -/
def pair_track_run (m : Nat) (bytes : List Nat) : PairTrack :=
  for_loop (pair_track_step m) 0 0 bytes pair_track_init

/-- The text `t` is the longest printable tail of `p`: the last `t.length` bytes
of `p` are the bytes of `t`, all printable, and the byte before them (if any) is
not printable. -/
def IsPrintableTail (p t : List Nat) : Prop :=
  t.length ≤ p.length ∧
  (∀ i j, i + t.length = p.length + j → j < t.length → p[i]? = t[j]?) ∧
  (∀ x ∈ t, is_printable x = true) ∧
  (∀ j, j + 1 + t.length = p.length → printable_at p j = false)

/-- Invariant of the single-byte reference track after the bytes `p`: the
candidate is the longest printable tail of `p`, its start offset is where that
tail begins, and the reported matches are, in increasing offset order, the
maximal runs of `p` of length at least `m` that are followed by a byte of `p`. -/
def AsciiInv (m : Nat) (p : List Nat) (a : AsciiTrack) : Prop :=
  IsPrintableTail p a.cand ∧
  (a.cand ≠ [] → a.start + a.cand.length = p.length) ∧
  a.out.Pairwise (fun x y => x.1 < y.1) ∧
  (∀ x ∈ a.out, x.1 + x.2.length + a.cand.length < p.length) ∧
  (∀ s t, (s, t) ∈ a.out ↔ (m ≤ t.length ∧ IsAsciiRun p s t ∧ s + t.length < p.length))

/-- The text `t` is the longest chain of adjacent (printable, `0x00`) pairs of `p`
that ends at offset `e`: the `2 * t.length` bytes before offset `e` are the
characters of `t`, each followed by `0x00`, and there is no pair right before
them. -/
def IsPairTail (p : List Nat) (e : Nat) (t : List Nat) : Prop :=
  2 * t.length ≤ e ∧ e ≤ p.length ∧
  (∀ i j, i + 2 * t.length = e + 2 * j → j < t.length →
    p[i]? = t[j]? ∧ p[i + 1]? = some 0) ∧
  (∀ x ∈ t, is_printable x = true) ∧
  (∀ j, j + 2 + 2 * t.length = e → pair_at p j = false)

/-- Invariant of the two-byte reference track after the bytes `p`.  The offset
`e` is where the bytes not yet paired begin: the end of `p` in state 0, the
offset of the pending byte in state 1.  The machine is in state 1 exactly when
the last byte is printable, that byte then being the pending one; the candidate
is the longest chain of pairs ending at `e`; and the reported matches are, in
increasing offset order, the maximal pair runs of `p` with at least `m` pairs
that end before `e`. -/
def PairInv (m : Nat) (p : List Nat) (u : PairTrack) : Prop :=
  ∃ e,
    (u.state = 0 ∨ u.state = 1) ∧
    (u.state = 0 → e = p.length ∧ ∀ j, j + 1 = p.length → printable_at p j = false) ∧
    (u.state ≠ 0 → e + 1 = p.length ∧ p[e]? = some u.pending_char ∧
      is_printable u.pending_char = true ∧ u.pending_start = e) ∧
    IsPairTail p e u.cand ∧
    (u.cand ≠ [] → u.start + 2 * u.cand.length = e) ∧
    u.out.Pairwise (fun x y => x.1 < y.1) ∧
    (∀ x ∈ u.out, x.1 + 2 * x.2.length + 2 * u.cand.length < e) ∧
    (∀ s t, (s, t) ∈ u.out ↔ (m ≤ t.length ∧ IsPairRun p s t ∧ s + 2 * t.length < e))

/-! ## The growable buffer -/

theorem is_printable_ne_zero {c : Nat} (h : is_printable c = true) : c ≠ 0 := by
  unfold is_printable at h
  simp at h
  omega

theorem c_str_of_holds {b : StrBuf} {txt : List Nat} (h : BufHolds b txt) :
    c_str b.data = txt := by
  obtain ⟨⟨rest, hd⟩, -, -, hnz⟩ := h
  unfold c_str
  rw [hd, List.takeWhile_append_of_pos]
  · simp
  · intro a ha
    simpa using hnz a ha

theorem init_buf_holds (fresh : Nat → Nat) : BufHolds (init_buf fresh) [] := by
  have hr : List.range 128 = 0 :: List.range' 1 127 := by decide
  refine ⟨⟨(List.range' 1 127).map fresh, ?_⟩, ?_, rfl, ?_⟩
  · simp only [init_buf, hr, List.map_cons, List.set_cons_zero, List.nil_append]
  · simp only [init_buf, List.length_set, List.length_map, List.length_range]
  · simp

theorem reset_buf_holds {b : StrBuf} {txt : List Nat} (h : BufHolds b txt) :
    BufHolds (reset_buf b) [] := by
  obtain ⟨⟨rest, hd⟩, hl, -, -⟩ := h
  refine ⟨⟨(txt ++ 0 :: rest).tail, ?_⟩, ?_, rfl, ?_⟩
  · simp only [reset_buf, hd]
    cases txt <;> simp
  · simpa [reset_buf] using hl
  · simp

theorem append_buf_of_full (fresh : Nat → Nat) (b : StrBuf) (c : Nat) (h : b.len + 1 ≥ b.cap) :
    append_buf fresh b c =
      { data := ((b.data ++ (List.range' b.cap (b.cap * 2 - b.cap)).map fresh).set b.len c).set
          (b.len + 1) 0
        len := b.len + 1
        cap := b.cap * 2
        start_offset := b.start_offset } := by
  unfold append_buf
  rw [if_pos h]

theorem append_buf_of_room (fresh : Nat → Nat) (b : StrBuf) (c : Nat) (h : ¬ b.len + 1 ≥ b.cap) :
    append_buf fresh b c =
      { data := (b.data.set b.len c).set (b.len + 1) 0
        len := b.len + 1
        cap := b.cap
        start_offset := b.start_offset } := by
  unfold append_buf
  rw [if_neg h]

theorem append_buf_holds (fresh : Nat → Nat) {b : StrBuf} {txt : List Nat} (c : Nat)
    (h : BufHolds b txt) (hc : c ≠ 0) : BufHolds (append_buf fresh b c) (txt ++ [c]) := by
  obtain ⟨⟨rest, hd⟩, hl, hlen, hnz⟩ := h
  have hcap : b.cap = txt.length + 1 + rest.length := by
    rw [← hl, hd]; simp; omega
  have hmem : ∀ x ∈ txt ++ [c], x ≠ 0 := by
    intro x hx
    rcases List.mem_append.1 hx with hx | hx
    · exact hnz x hx
    · simp at hx; subst hx; exact hc
  by_cases hfull : b.len + 1 ≥ b.cap
  · have hr : rest = [] := by
      apply List.eq_nil_of_length_eq_zero; omega
    subst hr
    rw [append_buf_of_full fresh b c hfull]
    obtain ⟨k, hk⟩ : ∃ k, b.cap * 2 - b.cap = k + 1 := ⟨b.cap - 1, by omega⟩
    refine ⟨⟨(List.range' (b.cap + 1) k).map fresh, ?_⟩, ?_, ?_, hmem⟩
    · simp only [hd, hlen, hk, List.range'_succ, List.map_cons]
      simp [List.set_append]
    · simp only [List.length_set, List.length_append, List.length_map, List.length_range', hl]
      omega
    · simp [hlen]
  · rw [append_buf_of_room fresh b c hfull]
    cases rest with
    | nil => simp at hcap; omega
    | cons r rest =>
      refine ⟨⟨rest, ?_⟩, ?_, ?_, hmem⟩
      · simp only [hd, hlen]
        simp [List.set_append]
      · simp only [List.length_set, hl]
      · simp [hlen]

theorem append_buf_start_offset (fresh : Nat → Nat) (b : StrBuf) (c : Nat) :
    (append_buf fresh b c).start_offset = b.start_offset := by
  by_cases hfull : b.len + 1 ≥ b.cap
  · rw [append_buf_of_full fresh b c hfull]
  · rw [append_buf_of_room fresh b c hfull]

/-! ## The read loops -/

theorem for_loop_append {σ : Type} (body : σ → Nat → Nat → σ) (g : Nat) :
    ∀ (p q : List Nat) (i : Nat) (s : σ),
      for_loop body g i (p ++ q) s = for_loop body g (i + p.length) q (for_loop body g i p s)
  | [], q, i, s => by simp [for_loop]
  | b :: p, q, i, s => by
    have ih := for_loop_append body g p q (i + 1) (body s b (g + i))
    have e : i + (b :: p).length = i + 1 + p.length := by simp; omega
    rw [List.cons_append, e]
    exact ih

theorem for_loop_shift {σ : Type} (body : σ → Nat → Nat → σ) (g k : Nat) :
    ∀ (p : List Nat) (i : Nat) (s : σ),
      for_loop body (g + k) i p s = for_loop body g (k + i) p s
  | [], i, s => by simp [for_loop]
  | b :: p, i, s => by
    simp only [for_loop]
    rw [for_loop_shift body g k p (i + 1), Nat.add_assoc g k i, Nat.add_assoc k i 1]

theorem for_loop_snoc {σ : Type} (body : σ → Nat → Nat → σ) (p : List Nat) (b : Nat) (s : σ) :
    for_loop body 0 0 (p ++ [b]) s = body (for_loop body 0 0 p s) b p.length := by
  rw [for_loop_append]
  simp [for_loop]

theorem while_loop_eq_for_loop {σ : Type} (body : σ → Nat → Nat → σ) :
    ∀ (reads : List (List Nat)) (g : Nat) (s : σ), (∀ c ∈ reads, c ≠ []) →
      while_loop body reads g s = for_loop body g 0 reads.flatten s
  | [], g, s, _ => by simp [while_loop, for_loop]
  | c :: reads, g, s, h => by
    have hc : c.length > 0 := List.length_pos.2 (h c (List.mem_cons_self _ _))
    have hr : ∀ d ∈ reads, d ≠ [] := fun d hd => h d (List.mem_cons_of_mem _ hd)
    simp only [while_loop, hc, if_true, List.flatten_cons]
    rw [while_loop_eq_for_loop body reads _ _ hr, for_loop_append, for_loop_shift]
    simp

theorem for_loop_rel {σ τ : Type} (R : σ → τ → Prop) (f : σ → Nat → Nat → σ)
    (k : τ → Nat → Nat → τ) (h : ∀ s t b pos, R s t → R (f s b pos) (k t b pos)) (g : Nat) :
    ∀ (p : List Nat) (i : Nat) (s : σ) (t : τ), R s t →
      R (for_loop f g i p s) (for_loop k g i p t)
  | [], _, _, _, hR => by simpa [for_loop] using hR
  | b :: p, i, s, t, hR => by
    simp only [for_loop]
    exact for_loop_rel R f k h g p (i + 1) _ _ (h s t b (g + i) hR)

/-! ## The embedding computes the reference tracks -/

theorem matches_of_append (t : Track) (out : List Match) (m : Match) :
    matches_of t (out ++ [m]) =
      matches_of t out ++ (if m.track = t then [(m.start_offset, m.text)] else []) := by
  unfold matches_of
  by_cases h : m.track = t <;> simp [List.filter_append, List.filter_cons, h]

theorem print_match_of_holds (t : Track) {b : StrBuf} {txt : List Nat} (h : BufHolds b txt) :
    print_match t b = { track := t, start_offset := b.start_offset, text := txt } := by
  unfold print_match
  rw [c_str_of_holds h]

theorem ascii_logic_printable (fresh : Nat → Nat) (cfg : Config) (s : ScanState) {b : Nat}
    (pos : Nat) (h : is_printable b = true) :
    ascii_logic fresh cfg s b pos =
      { s with
        ascii_buf :=
          append_buf fresh
            (if s.ascii_buf.len = 0 then { s.ascii_buf with start_offset := pos }
              else s.ascii_buf) b } := by
  unfold ascii_logic
  rw [if_pos h]

theorem ascii_logic_break (fresh : Nat → Nat) (cfg : Config) (s : ScanState) {b : Nat}
    (pos : Nat) (h : is_printable b = false) :
    ascii_logic fresh cfg s b pos =
      { s with
        out := if s.ascii_buf.len ≥ to_size_t cfg.min_len then
            s.out ++ [print_match Track.ascii s.ascii_buf] else s.out
        ascii_buf := reset_buf s.ascii_buf } := by
  unfold ascii_logic
  rw [if_neg (by simp [h])]

theorem ascii_logic_sim (fresh : Nat → Nat) (cfg : Config) (s : ScanState) (a : AsciiTrack)
    (b pos : Nat) (h : AsciiSim s a) :
    AsciiSim (ascii_logic fresh cfg s b pos) (ascii_track_step (to_size_t cfg.min_len) a b pos) := by
  obtain ⟨hb, hs, ho, hp⟩ := h
  have hlen : s.ascii_buf.len = a.cand.length := hb.2.2.1
  cases hpr : is_printable b
  · rw [ascii_logic_break fresh cfg s pos hpr]
    simp only [ascii_track_step, hpr, Bool.false_eq_true, if_false]
    refine ⟨reset_buf_holds hb, ?_, ?_, by simp⟩
    · exact hs
    · show matches_of Track.ascii (if s.ascii_buf.len ≥ to_size_t cfg.min_len then
          s.out ++ [print_match Track.ascii s.ascii_buf] else s.out) = _
      by_cases hm : s.ascii_buf.len ≥ to_size_t cfg.min_len
      · have hm' : to_size_t cfg.min_len ≤ a.cand.length := by omega
        rw [if_pos hm, if_pos hm', matches_of_append, print_match_of_holds Track.ascii hb, ho, hs]
        simp
      · have hm' : ¬ to_size_t cfg.min_len ≤ a.cand.length := by omega
        rw [if_neg hm, if_neg hm', ho]
  · rw [ascii_logic_printable fresh cfg s pos hpr]
    simp only [ascii_track_step, hpr, if_true]
    refine ⟨?_, ?_, ho, ?_⟩
    · apply append_buf_holds fresh b _ (is_printable_ne_zero hpr)
      by_cases h0 : s.ascii_buf.len = 0
      · rw [if_pos h0]; exact hb
      · rw [if_neg h0]; exact hb
    · show (append_buf fresh _ b).start_offset = _
      rw [append_buf_start_offset]
      by_cases h0 : s.ascii_buf.len = 0
      · have h0' : a.cand.length = 0 := by omega
        rw [if_pos h0, if_pos h0']
      · have h0' : ¬ a.cand.length = 0 := by omega
        rw [if_neg h0, if_neg h0']; exact hs
    · intro c hc
      rcases List.mem_append.1 hc with hc | hc
      · exact hp c hc
      · simp at hc; subst hc; exact hpr

theorem ascii_logic_frame (fresh : Nat → Nat) (cfg : Config) (s : ScanState) (u : PairTrack)
    (b pos : Nat) (h : PairSim s u) : PairSim (ascii_logic fresh cfg s b pos) u := by
  obtain ⟨hb, hs, ho, hrest⟩ := h
  cases hpr : is_printable b
  · rw [ascii_logic_break fresh cfg s pos hpr]
    refine ⟨hb, hs, ?_, hrest⟩
    show matches_of Track.utf16 (if s.ascii_buf.len ≥ to_size_t cfg.min_len then
          s.out ++ [print_match Track.ascii s.ascii_buf] else s.out) = _
    by_cases hm : s.ascii_buf.len ≥ to_size_t cfg.min_len
    · rw [if_pos hm, matches_of_append, ho]
      simp [print_match]
    · rw [if_neg hm, ho]
  · rw [ascii_logic_printable fresh cfg s pos hpr]
    exact ⟨hb, hs, ho, hrest⟩

theorem utf16_logic_pend (fresh : Nat → Nat) (cfg : Config) (s : ScanState) {b : Nat} (pos : Nat)
    (h0 : s.utf16_state = 0) (h : is_printable b = true) :
    utf16_logic fresh cfg s b pos =
      { s with utf16_pending_char := b, utf16_pending_start := pos, utf16_state := 1 } := by
  unfold utf16_logic
  rw [if_pos h0, if_pos h]

theorem utf16_logic_break (fresh : Nat → Nat) (cfg : Config) (s : ScanState) {b : Nat} (pos : Nat)
    (h0 : s.utf16_state = 0) (h : is_printable b = false) :
    utf16_logic fresh cfg s b pos =
      { s with
        out := if s.utf16_buf.len ≥ to_size_t cfg.min_len then
            s.out ++ [print_match Track.utf16 s.utf16_buf] else s.out
        utf16_buf := reset_buf s.utf16_buf } := by
  unfold utf16_logic
  rw [if_pos h0, if_neg (by simp [h])]

theorem utf16_logic_confirm (fresh : Nat → Nat) (cfg : Config) (s : ScanState) {b : Nat}
    (pos : Nat) (h1 : s.utf16_state ≠ 0) (h : b = 0) :
    utf16_logic fresh cfg s b pos =
      { s with
        utf16_buf :=
          append_buf fresh
            (if s.utf16_buf.len = 0 then
              { s.utf16_buf with start_offset := s.utf16_pending_start }
              else s.utf16_buf) s.utf16_pending_char
        utf16_state := 0 } := by
  unfold utf16_logic
  rw [if_neg h1, if_pos h]

theorem utf16_logic_fail_pend (fresh : Nat → Nat) (cfg : Config) (s : ScanState) {b : Nat}
    (pos : Nat) (h1 : s.utf16_state ≠ 0) (h : b ≠ 0) (hp : is_printable b = true) :
    utf16_logic fresh cfg s b pos =
      { s with
        out := if s.utf16_buf.len ≥ to_size_t cfg.min_len then
            s.out ++ [print_match Track.utf16 s.utf16_buf] else s.out
        utf16_buf := reset_buf s.utf16_buf
        utf16_pending_char := b
        utf16_pending_start := pos
        utf16_state := 1 } := by
  unfold utf16_logic
  rw [if_neg h1, if_neg h]
  simp only [hp, if_true]

theorem utf16_logic_fail_break (fresh : Nat → Nat) (cfg : Config) (s : ScanState) {b : Nat}
    (pos : Nat) (h1 : s.utf16_state ≠ 0) (h : b ≠ 0) (hp : is_printable b = false) :
    utf16_logic fresh cfg s b pos =
      { s with
        out := if s.utf16_buf.len ≥ to_size_t cfg.min_len then
            s.out ++ [print_match Track.utf16 s.utf16_buf] else s.out
        utf16_buf := reset_buf s.utf16_buf
        utf16_state := 0 } := by
  unfold utf16_logic
  rw [if_neg h1, if_neg h]
  simp only [hp, Bool.false_eq_true, if_false]

theorem utf16_flush_out (cfg : Config) {s : ScanState} {u : PairTrack}
    (hb : BufHolds s.utf16_buf u.cand) (hs : s.utf16_buf.start_offset = u.start)
    (ho : matches_of Track.utf16 s.out = u.out) :
    matches_of Track.utf16 (if s.utf16_buf.len ≥ to_size_t cfg.min_len then
        s.out ++ [print_match Track.utf16 s.utf16_buf] else s.out) =
      if to_size_t cfg.min_len ≤ u.cand.length then u.out ++ [(u.start, u.cand)] else u.out := by
  have hlen : s.utf16_buf.len = u.cand.length := hb.2.2.1
  by_cases hm : s.utf16_buf.len ≥ to_size_t cfg.min_len
  · have hm' : to_size_t cfg.min_len ≤ u.cand.length := by omega
    rw [if_pos hm, if_pos hm', matches_of_append, print_match_of_holds Track.utf16 hb, ho, hs]
    simp
  · have hm' : ¬ to_size_t cfg.min_len ≤ u.cand.length := by omega
    rw [if_neg hm, if_neg hm', ho]

theorem utf16_logic_sim (fresh : Nat → Nat) (cfg : Config) (s : ScanState) (u : PairTrack)
    (b pos : Nat) (h : PairSim s u) :
    PairSim (utf16_logic fresh cfg s b pos) (pair_track_step (to_size_t cfg.min_len) u b pos) := by
  obtain ⟨hb, hs, ho, hst, hpc, hps, hp, hpend⟩ := h
  have hlen : s.utf16_buf.len = u.cand.length := hb.2.2.1
  by_cases h0 : s.utf16_state = 0
  · have h0' : u.state = 0 := by rw [← hst]; exact h0
    cases hpr : is_printable b
    · rw [utf16_logic_break fresh cfg s pos h0 hpr]
      simp only [pair_track_step, h0', hpr, Bool.false_eq_true, if_false, if_true]
      exact ⟨reset_buf_holds hb, hs, utf16_flush_out cfg hb hs ho, h0, hpc, hps, by simp,
        fun hne => absurd rfl hne⟩
    · rw [utf16_logic_pend fresh cfg s pos h0 hpr]
      simp only [pair_track_step, h0', hpr, if_true]
      exact ⟨hb, hs, ho, rfl, rfl, rfl, hp, fun _ => hpr⟩
  · have h0' : ¬ u.state = 0 := by rw [← hst]; exact h0
    have hpp : is_printable u.pending_char = true := hpend h0'
    by_cases hz : b = 0
    · rw [utf16_logic_confirm fresh cfg s pos h0 hz]
      simp only [pair_track_step, h0', hz, if_false, if_true]
      refine ⟨?_, ?_, ho, rfl, hpc, hps, ?_, fun hne => absurd rfl hne⟩
      · show BufHolds (append_buf fresh _ s.utf16_pending_char) _
        rw [hpc]
        apply append_buf_holds fresh _ _ (is_printable_ne_zero hpp)
        by_cases hl : s.utf16_buf.len = 0
        · rw [if_pos hl]; exact hb
        · rw [if_neg hl]; exact hb
      · show (append_buf fresh _ s.utf16_pending_char).start_offset = _
        rw [append_buf_start_offset]
        by_cases hl : s.utf16_buf.len = 0
        · have hl' : u.cand.length = 0 := by omega
          rw [if_pos hl, if_pos hl']; exact hps
        · have hl' : ¬ u.cand.length = 0 := by omega
          rw [if_neg hl, if_neg hl']; exact hs
      · intro c hc
        rcases List.mem_append.1 hc with hc | hc
        · exact hp c hc
        · simp at hc; subst hc; exact hpp
    · cases hpr : is_printable b
      · rw [utf16_logic_fail_break fresh cfg s pos h0 hz hpr]
        simp only [pair_track_step, h0', hz, hpr, Bool.false_eq_true, if_false]
        exact ⟨reset_buf_holds hb, hs, utf16_flush_out cfg hb hs ho, rfl, hpc, hps, by simp,
          fun hne => absurd rfl hne⟩
      · rw [utf16_logic_fail_pend fresh cfg s pos h0 hz hpr]
        simp only [pair_track_step, h0', hz, hpr, if_false, if_true]
        exact ⟨reset_buf_holds hb, hs, utf16_flush_out cfg hb hs ho, rfl, rfl, rfl, by simp,
          fun _ => hpr⟩

theorem utf16_logic_frame (fresh : Nat → Nat) (cfg : Config) (s : ScanState) (a : AsciiTrack)
    (b pos : Nat) (h : AsciiSim s a) : AsciiSim (utf16_logic fresh cfg s b pos) a := by
  obtain ⟨hb, hs, ho, hp⟩ := h
  have hout : matches_of Track.ascii (if s.utf16_buf.len ≥ to_size_t cfg.min_len then
        s.out ++ [print_match Track.utf16 s.utf16_buf] else s.out) = a.out := by
    by_cases hm : s.utf16_buf.len ≥ to_size_t cfg.min_len
    · rw [if_pos hm, matches_of_append, ho]
      simp [print_match]
    · rw [if_neg hm, ho]
  by_cases h0 : s.utf16_state = 0
  · cases hpr : is_printable b
    · rw [utf16_logic_break fresh cfg s pos h0 hpr]
      exact ⟨hb, hs, hout, hp⟩
    · rw [utf16_logic_pend fresh cfg s pos h0 hpr]
      exact ⟨hb, hs, ho, hp⟩
  · by_cases hz : b = 0
    · rw [utf16_logic_confirm fresh cfg s pos h0 hz]
      exact ⟨hb, hs, ho, hp⟩
    · cases hpr : is_printable b
      · rw [utf16_logic_fail_break fresh cfg s pos h0 hz hpr]
        exact ⟨hb, hs, hout, hp⟩
      · rw [utf16_logic_fail_pend fresh cfg s pos h0 hz hpr]
        exact ⟨hb, hs, hout, hp⟩

theorem loop_body_ascii_sim (fresh : Nat → Nat) (cfg : Config) (s : ScanState) (a : AsciiTrack)
    (b pos : Nat) (h : AsciiSim s a) :
    AsciiSim (loop_body fresh cfg s b pos) (ascii_track_step (to_size_t cfg.min_len) a b pos) :=
  utf16_logic_frame fresh cfg _ _ b pos (ascii_logic_sim fresh cfg s a b pos h)

theorem loop_body_pair_sim (fresh : Nat → Nat) (cfg : Config) (s : ScanState) (u : PairTrack)
    (b pos : Nat) (h : PairSim s u) :
    PairSim (loop_body fresh cfg s b pos) (pair_track_step (to_size_t cfg.min_len) u b pos) :=
  utf16_logic_sim fresh cfg _ _ b pos (ascii_logic_frame fresh cfg s u b pos h)

theorem initial_state_ascii_sim (fresh : Nat → Nat) :
    AsciiSim (initial_state fresh) ascii_track_init :=
  ⟨init_buf_holds fresh, rfl, rfl, by simp [ascii_track_init]⟩

theorem initial_state_pair_sim (fresh : Nat → Nat) :
    PairSim (initial_state fresh) pair_track_init :=
  ⟨init_buf_holds fresh, rfl, rfl, rfl, rfl, rfl, by simp [pair_track_init],
    fun h => absurd rfl h⟩

theorem scan_loop_eq (fresh : Nat → Nat) (cfg : Config) (reads : List (List Nat))
    (hc : ∀ c ∈ reads, c ≠ []) :
    scan_loop fresh cfg reads =
      for_loop (loop_body fresh cfg) 0 0 reads.flatten (initial_state fresh) := by
  unfold scan_loop
  exact while_loop_eq_for_loop _ reads 0 _ hc

theorem scan_loop_ascii_sim (fresh : Nat → Nat) (cfg : Config) (reads : List (List Nat))
    (hc : ∀ c ∈ reads, c ≠ []) :
    AsciiSim (scan_loop fresh cfg reads)
      (ascii_track_run (to_size_t cfg.min_len) reads.flatten) := by
  rw [scan_loop_eq fresh cfg reads hc]
  exact for_loop_rel AsciiSim _ _ (loop_body_ascii_sim fresh cfg) 0 _ 0 _ _
    (initial_state_ascii_sim fresh)

theorem scan_loop_pair_sim (fresh : Nat → Nat) (cfg : Config) (reads : List (List Nat))
    (hc : ∀ c ∈ reads, c ≠ []) :
    PairSim (scan_loop fresh cfg reads)
      (pair_track_run (to_size_t cfg.min_len) reads.flatten) := by
  rw [scan_loop_eq fresh cfg reads hc]
  exact for_loop_rel PairSim _ _ (loop_body_pair_sim fresh cfg) 0 _ 0 _ _
    (initial_state_pair_sim fresh)

theorem cleanup_ascii (cfg : Config) {s : ScanState} {a : AsciiTrack} (h : AsciiSim s a) :
    matches_of Track.ascii (end_of_file_cleanup cfg s) =
      ascii_track_flush (to_size_t cfg.min_len) a := by
  obtain ⟨hb, hs, ho, -⟩ := h
  have hlen : s.ascii_buf.len = a.cand.length := hb.2.2.1
  have h1 : matches_of Track.ascii (if s.ascii_buf.len ≥ to_size_t cfg.min_len then
      s.out ++ [print_match Track.ascii s.ascii_buf] else s.out) =
      ascii_track_flush (to_size_t cfg.min_len) a := by
    unfold ascii_track_flush
    by_cases hm : s.ascii_buf.len ≥ to_size_t cfg.min_len
    · have hm' : to_size_t cfg.min_len ≤ a.cand.length := by omega
      rw [if_pos hm, if_pos hm', matches_of_append, print_match_of_holds Track.ascii hb, ho, hs]
      simp
    · have hm' : ¬ to_size_t cfg.min_len ≤ a.cand.length := by omega
      rw [if_neg hm, if_neg hm', ho]
  unfold end_of_file_cleanup
  by_cases hu : s.utf16_buf.len ≥ to_size_t cfg.min_len
  · simp only [hu, if_true, matches_of_append, h1]
    simp [print_match]
  · simp only [hu, if_false, h1]

theorem cleanup_utf16 (cfg : Config) {s : ScanState} {u : PairTrack} (h : PairSim s u) :
    matches_of Track.utf16 (end_of_file_cleanup cfg s) =
      pair_track_flush (to_size_t cfg.min_len) u := by
  obtain ⟨hb, hs, ho, -⟩ := h
  have hlen : s.utf16_buf.len = u.cand.length := hb.2.2.1
  have h1 : matches_of Track.utf16 (if s.ascii_buf.len ≥ to_size_t cfg.min_len then
      s.out ++ [print_match Track.ascii s.ascii_buf] else s.out) = u.out := by
    by_cases hm : s.ascii_buf.len ≥ to_size_t cfg.min_len
    · rw [if_pos hm, matches_of_append, ho]
      simp [print_match]
    · rw [if_neg hm, ho]
  unfold end_of_file_cleanup pair_track_flush
  by_cases hm : s.utf16_buf.len ≥ to_size_t cfg.min_len
  · have hm' : to_size_t cfg.min_len ≤ u.cand.length := by omega
    simp only [hm, hm', if_true, matches_of_append, h1, print_match_of_holds Track.utf16 hb, hs]
  · have hm' : ¬ to_size_t cfg.min_len ≤ u.cand.length := by omega
    simp only [hm, hm', if_false, h1]

/-- The single-byte matches of `process_file` are those of the reference track
run over the concatenated chunks. -/
theorem process_file_ascii (fresh : Nat → Nat) (cfg : Config) (reads : List (List Nat))
    (hc : ∀ c ∈ reads, c ≠ []) :
    matches_of Track.ascii (process_file fresh cfg (some reads)) =
      ascii_track_flush (to_size_t cfg.min_len)
        (ascii_track_run (to_size_t cfg.min_len) reads.flatten) :=
  cleanup_ascii cfg (scan_loop_ascii_sim fresh cfg reads hc)

/-- The two-byte matches of `process_file` are those of the reference track run
over the concatenated chunks. -/
theorem process_file_utf16 (fresh : Nat → Nat) (cfg : Config) (reads : List (List Nat))
    (hc : ∀ c ∈ reads, c ≠ []) :
    matches_of Track.utf16 (process_file fresh cfg (some reads)) =
      pair_track_flush (to_size_t cfg.min_len)
        (pair_track_run (to_size_t cfg.min_len) reads.flatten) :=
  cleanup_utf16 cfg (scan_loop_pair_sim fresh cfg reads hc)

theorem to_size_t_of_pos {x : Int} (h : 1 ≤ x) : to_size_t x = x.toNat ∧ 1 ≤ to_size_t x := by
  unfold to_size_t
  have : ¬ x < 0 := by omega
  rw [if_neg this]
  exact ⟨rfl, by omega⟩

/-! ## Offsets in a stream extended by one byte -/

theorem getElem?_snoc_lt (p : List Nat) (b : Nat) {j : Nat} (h : j < p.length) :
    (p ++ [b])[j]? = p[j]? :=
  List.getElem?_append_left h

theorem getElem?_snoc_eq (p : List Nat) (b : Nat) : (p ++ [b])[p.length]? = some b :=
  List.getElem?_concat_length p b

theorem lt_length_of_getElem? {p : List Nat} {j c : Nat} (h : p[j]? = some c) : j < p.length := by
  by_contra hn
  rw [List.getElem?_eq_none (by omega)] at h
  exact Option.noConfusion h

theorem printable_at_of_get {p : List Nat} {j c : Nat} (h : p[j]? = some c) :
    printable_at p j = is_printable c := by
  unfold printable_at
  rw [h]

theorem printable_at_of_ge {p : List Nat} {j : Nat} (h : p.length ≤ j) :
    printable_at p j = false := by
  unfold printable_at
  rw [List.getElem?_eq_none h]

theorem printable_at_snoc_lt (p : List Nat) (b : Nat) {j : Nat} (h : j < p.length) :
    printable_at (p ++ [b]) j = printable_at p j := by
  unfold printable_at
  rw [getElem?_snoc_lt p b h]

theorem printable_at_snoc_eq (p : List Nat) (b : Nat) :
    printable_at (p ++ [b]) p.length = is_printable b :=
  printable_at_of_get (getElem?_snoc_eq p b)

theorem getElem?_of_lt {t : List Nat} {j : Nat} (h : j < t.length) : ∃ c, t[j]? = some c ∧ c ∈ t :=
  ⟨t[j], List.getElem?_eq_getElem h, List.getElem_mem h⟩

/-! ## The single-byte track -/

theorem ascii_run_bound {p : List Nat} {s : Nat} {t : List Nat} (h : IsAsciiRun p s t) :
    s + t.length ≤ p.length := by
  obtain ⟨hne, hc, -, -, -⟩ := h
  have hpos : 0 < t.length := List.length_pos.2 hne
  obtain ⟨c, hc1, -⟩ := getElem?_of_lt (show t.length - 1 < t.length by omega)
  have := hc (t.length - 1) (by omega)
  rw [hc1] at this
  have := lt_length_of_getElem? this
  omega

theorem ascii_run_printable_at {p : List Nat} {s : Nat} {t : List Nat} (h : IsAsciiRun p s t)
    {i : Nat} (h1 : s ≤ i) (h2 : i < s + t.length) : printable_at p i = true := by
  obtain ⟨-, hc, hp, -, -⟩ := h
  obtain ⟨c, hc1, hc2⟩ := getElem?_of_lt (show i - s < t.length by omega)
  have := hc (i - s) (by omega)
  rw [hc1, show s + (i - s) = i by omega] at this
  rw [printable_at_of_get this]
  exact hp c hc2

theorem ascii_run_snoc (p : List Nat) (b : Nat) {s : Nat} {t : List Nat}
    (h : s + t.length ≤ p.length) :
    IsAsciiRun (p ++ [b]) s t ↔
      (IsAsciiRun p s t ∧ (s + t.length = p.length → is_printable b = false)) := by
  have hcont : (∀ j, j < t.length → (p ++ [b])[s + j]? = t[j]?) ↔
      (∀ j, j < t.length → p[s + j]? = t[j]?) := by
    constructor
    · intro hc j hj
      rw [← getElem?_snoc_lt p b (show s + j < p.length by omega)]
      exact hc j hj
    · intro hc j hj
      rw [getElem?_snoc_lt p b (show s + j < p.length by omega)]
      exact hc j hj
  constructor
  · rintro ⟨hne, hc, hp, hl, hr⟩
    have hpos : 0 < t.length := List.length_pos.2 hne
    refine ⟨⟨hne, hcont.1 hc, hp, ?_, ?_⟩, ?_⟩
    · intro j hj
      rw [← printable_at_snoc_lt p b (show j < p.length by omega)]
      exact hl j hj
    · by_cases he : s + t.length = p.length
      · exact printable_at_of_ge (by omega)
      · rw [← printable_at_snoc_lt p b (show s + t.length < p.length by omega)]
        exact hr
    · intro he
      rw [he, printable_at_snoc_eq] at hr
      exact hr
  · rintro ⟨⟨hne, hc, hp, hl, hr⟩, hb⟩
    have hpos : 0 < t.length := List.length_pos.2 hne
    refine ⟨hne, hcont.2 hc, hp, ?_, ?_⟩
    · intro j hj
      rw [printable_at_snoc_lt p b (show j < p.length by omega)]
      exact hl j hj
    · by_cases he : s + t.length = p.length
      · rw [he, printable_at_snoc_eq]
        exact hb he
      · rw [printable_at_snoc_lt p b (show s + t.length < p.length by omega)]
        exact hr

theorem tail_printable_at {p c : List Nat} (h : IsPrintableTail p c) {i : Nat}
    (h1 : p.length ≤ i + c.length) (h2 : i < p.length) : printable_at p i = true := by
  obtain ⟨-, hc, hp, -⟩ := h
  obtain ⟨x, hx1, hx2⟩ := getElem?_of_lt (show i + c.length - p.length < c.length by omega)
  have := hc i (i + c.length - p.length) (by omega) (by omega)
  rw [hx1] at this
  rw [printable_at_of_get this]
  exact hp x hx2

theorem tail_run {p c : List Nat} (h : IsPrintableTail p c) (hne : c ≠ []) {s : Nat}
    (hs : s + c.length = p.length) : IsAsciiRun p s c := by
  obtain ⟨hl, hc, hp, hb⟩ := h
  refine ⟨hne, ?_, hp, ?_, ?_⟩
  · intro j hj
    exact hc (s + j) j (by omega) hj
  · intro j hj
    exact hb j (by omega)
  · exact printable_at_of_ge (by omega)

theorem tail_unique {p c : List Nat} (h : IsPrintableTail p c) {s : Nat} {t : List Nat}
    (hr : IsAsciiRun p s t) (hs : s + t.length = p.length) : t = c := by
  have hpos : 0 < t.length := List.length_pos.2 hr.1
  have hcl : c.length ≤ p.length := h.1
  have hlen : t.length = c.length := by
    rcases Nat.lt_trichotomy t.length c.length with hlt | heq | hgt
    · have h1 := tail_printable_at h (show p.length ≤ (s - 1) + c.length by omega) (by omega)
      have h2 := hr.2.2.2.1 (s - 1) (by omega)
      rw [h1] at h2
      exact Bool.noConfusion h2
    · exact heq
    · have h1 := ascii_run_printable_at hr (show s ≤ p.length - c.length - 1 by omega) (by omega)
      have h2 := h.2.2.2 (p.length - c.length - 1) (by omega)
      rw [h1] at h2
      exact Bool.noConfusion h2
  apply List.ext_getElem?
  intro j
  by_cases hj : j < t.length
  · rw [← hr.2.1 j hj]
    exact h.2.1 (s + j) j (by omega) (by omega)
  · rw [List.getElem?_eq_none (by omega), List.getElem?_eq_none (by omega)]

theorem tail_nil : IsPrintableTail [] [] :=
  ⟨Nat.le_refl _, fun _ j _ hj => absurd hj (Nat.not_lt_zero j), fun _ hx => by simp at hx,
    fun j hj => by simp at hj⟩

theorem tail_snoc_printable {p c : List Nat} (h : IsPrintableTail p c) {b : Nat}
    (hb : is_printable b = true) : IsPrintableTail (p ++ [b]) (c ++ [b]) := by
  obtain ⟨hl, hc, hp, hbd⟩ := h
  refine ⟨by simp; omega, ?_, ?_, ?_⟩
  · intro i j hij hj
    simp only [List.length_append, List.length_singleton] at hij hj
    by_cases hjc : j < c.length
    · rw [getElem?_snoc_lt p b (show i < p.length by omega), List.getElem?_append_left hjc]
      exact hc i j (by omega) hjc
    · have hi : i = p.length := by omega
      have hj2 : j = c.length := by omega
      rw [hi, hj2, getElem?_snoc_eq, List.getElem?_concat_length]
  · intro x hx
    rcases List.mem_append.1 hx with hx | hx
    · exact hp x hx
    · simp at hx; subst hx; exact hb
  · intro j hj
    simp only [List.length_append, List.length_singleton] at hj
    rw [printable_at_snoc_lt p b (show j < p.length by omega)]
    exact hbd j (by omega)

theorem tail_snoc_break (p : List Nat) {b : Nat} (hb : is_printable b = false) :
    IsPrintableTail (p ++ [b]) [] := by
  refine ⟨by simp, fun _ j _ hj => absurd hj (Nat.not_lt_zero j), fun _ hx => by simp at hx, ?_⟩
  intro j hj
  simp only [List.length_append, List.length_singleton, List.length_nil] at hj
  have : j = p.length := by omega
  rw [this, printable_at_snoc_eq]
  exact hb

theorem ascii_track_step_printable (m : Nat) (a : AsciiTrack) {b : Nat} (pos : Nat)
    (h : is_printable b = true) :
    ascii_track_step m a b pos =
      { a with cand := a.cand ++ [b], start := if a.cand.length = 0 then pos else a.start } := by
  unfold ascii_track_step
  rw [if_pos h]

theorem ascii_track_step_break (m : Nat) (a : AsciiTrack) {b : Nat} (pos : Nat)
    (h : is_printable b = false) :
    ascii_track_step m a b pos =
      { a with
        cand := []
        out := if m ≤ a.cand.length then a.out ++ [(a.start, a.cand)] else a.out } := by
  unfold ascii_track_step
  rw [if_neg (by simp [h])]

theorem ascii_inv_init (m : Nat) : AsciiInv m [] ascii_track_init := by
  refine ⟨tail_nil, fun h => absurd rfl h, List.Pairwise.nil, fun x hx => ?_, fun s t => ?_⟩
  · simp [ascii_track_init] at hx
  · constructor
    · intro h
      simp [ascii_track_init] at h
    · rintro ⟨-, -, h⟩
      simp at h

theorem ascii_inv_step {m : Nat} (hm : 1 ≤ m) {p : List Nat} {a : AsciiTrack} (b : Nat)
    (h : AsciiInv m p a) : AsciiInv m (p ++ [b]) (ascii_track_step m a b p.length) := by
  obtain ⟨hT, hS, hP, hB, hM⟩ := h
  have hlen : (p ++ [b]).length = p.length + 1 := by simp
  cases hpr : is_printable b
  · -- a run-breaking byte
    rw [ascii_track_step_break m a p.length hpr]
    have hrun : ∀ s t, (IsAsciiRun (p ++ [b]) s t ∧ s + t.length < (p ++ [b]).length) ↔
        ((IsAsciiRun p s t ∧ s + t.length < p.length) ∨
          (a.cand ≠ [] ∧ s = a.start ∧ t = a.cand)) := by
      intro s t
      rw [hlen]
      constructor
      · rintro ⟨hr, hlt⟩
        have hr2 := ((ascii_run_snoc p b (show s + t.length ≤ p.length by omega)).1 hr).1
        by_cases he : s + t.length = p.length
        · right
          have ht := tail_unique hT hr2 he
          subst ht
          have := hS hr2.1
          exact ⟨hr2.1, by omega, rfl⟩
        · left
          exact ⟨hr2, by omega⟩
      · rintro (⟨hr, hlt⟩ | ⟨hne, hs, ht⟩)
        · exact ⟨(ascii_run_snoc p b (by omega)).2 ⟨hr, fun he => by omega⟩, by omega⟩
        · subst hs ht
          have hs := hS hne
          exact ⟨(ascii_run_snoc p b (by omega)).2 ⟨tail_run hT hne hs, fun _ => hpr⟩, by omega⟩
    by_cases hml : m ≤ a.cand.length
    · have hne : a.cand ≠ [] := by
        intro h0
        rw [h0] at hml
        simp at hml
        omega
      have hs := hS hne
      simp only [if_pos hml]
      refine ⟨tail_snoc_break p hpr, fun h0 => absurd rfl h0, ?_, ?_, ?_⟩
      · rw [List.pairwise_append]
        refine ⟨hP, List.pairwise_singleton _ _, ?_⟩
        intro x hx y hy
        rw [List.mem_singleton] at hy
        subst hy
        have := hB x hx
        show x.1 < a.start
        omega
      · intro x hx
        rw [hlen]
        rcases List.mem_append.1 hx with hx | hx
        · have := hB x hx
          simp only [List.length_nil]
          omega
        · rw [List.mem_singleton] at hx
          subst hx
          simp only [List.length_nil]
          omega
      · intro s t
        rw [hrun s t, List.mem_append, List.mem_singleton, hM s t, Prod.mk.injEq]
        constructor
        · rintro (⟨h1, h2⟩ | ⟨h1, h2⟩)
          · exact ⟨h1, Or.inl h2⟩
          · subst h1 h2
            exact ⟨hml, Or.inr ⟨hne, rfl, rfl⟩⟩
        · rintro ⟨h1, h2 | ⟨-, h3, h4⟩⟩
          · exact Or.inl ⟨h1, h2⟩
          · exact Or.inr ⟨h3, h4⟩
    · simp only [if_neg hml]
      refine ⟨tail_snoc_break p hpr, fun h0 => absurd rfl h0, hP, ?_, ?_⟩
      · intro x hx
        have := hB x hx
        rw [hlen]
        simp only [List.length_nil]
        omega
      · intro s t
        rw [hrun s t, hM s t]
        constructor
        · rintro ⟨h1, h2⟩
          exact ⟨h1, Or.inl h2⟩
        · rintro ⟨h1, h2 | ⟨-, -, h4⟩⟩
          · exact ⟨h1, h2⟩
          · subst h4
            exact absurd h1 hml
  · -- a printable byte
    rw [ascii_track_step_printable m a p.length hpr]
    refine ⟨tail_snoc_printable hT hpr, ?_, hP, ?_, ?_⟩
    · intro _
      show (if a.cand.length = 0 then p.length else a.start) + (a.cand ++ [b]).length = _
      rw [hlen, List.length_append, List.length_singleton]
      by_cases h0 : a.cand.length = 0
      · rw [if_pos h0]; omega
      · rw [if_neg h0]
        have := hS (fun hn => h0 (by rw [hn]; rfl))
        omega
    · intro x hx
      have := hB x hx
      show x.1 + x.2.length + (a.cand ++ [b]).length < _
      rw [hlen, List.length_append, List.length_singleton]
      omega
    · intro s t
      show (s, t) ∈ a.out ↔ _
      rw [hM s t, hlen]
      constructor
      · rintro ⟨h1, h2, h3⟩
        exact ⟨h1, (ascii_run_snoc p b (by omega)).2 ⟨h2, fun he => by omega⟩, by omega⟩
      · rintro ⟨h1, h2, h3⟩
        have h4 := (ascii_run_snoc p b (show s + t.length ≤ p.length by omega)).1 h2
        refine ⟨h1, h4.1, ?_⟩
        by_contra hn
        have := h4.2 (by omega)
        rw [hpr] at this
        exact Bool.noConfusion this

theorem ascii_inv_run {m : Nat} (hm : 1 ≤ m) (p : List Nat) :
    AsciiInv m p (ascii_track_run m p) := by
  induction p using List.reverseRecOn with
  | nil => exact ascii_inv_init m
  | append_singleton p b ih =>
    unfold ascii_track_run
    rw [for_loop_snoc]
    exact ascii_inv_step hm b ih

theorem ascii_flush_mem {m : Nat} (hm : 1 ≤ m) {p : List Nat} {a : AsciiTrack}
    (h : AsciiInv m p a) (s : Nat) (t : List Nat) :
    (s, t) ∈ ascii_track_flush m a ↔ (m ≤ t.length ∧ IsAsciiRun p s t) := by
  obtain ⟨hT, hS, -, -, hM⟩ := h
  have hend : ∀ s t, IsAsciiRun p s t → s + t.length = p.length →
      a.cand ≠ [] ∧ s = a.start ∧ t = a.cand := by
    intro s t hr he
    have ht := tail_unique hT hr he
    subst ht
    have := hS hr.1
    exact ⟨hr.1, by omega, rfl⟩
  unfold ascii_track_flush
  by_cases hml : m ≤ a.cand.length
  · have hne : a.cand ≠ [] := by
      intro h0
      rw [h0] at hml
      simp at hml
      omega
    rw [if_pos hml, List.mem_append, List.mem_singleton, hM s t, Prod.mk.injEq]
    constructor
    · rintro (⟨h1, h2, -⟩ | ⟨h1, h2⟩)
      · exact ⟨h1, h2⟩
      · subst h1 h2
        exact ⟨hml, tail_run hT hne (hS hne)⟩
    · rintro ⟨h1, h2⟩
      have hb := ascii_run_bound h2
      by_cases he : s + t.length = p.length
      · obtain ⟨-, h3, h4⟩ := hend s t h2 he
        exact Or.inr ⟨h3, h4⟩
      · exact Or.inl ⟨h1, h2, by omega⟩
  · rw [if_neg hml, hM s t]
    constructor
    · rintro ⟨h1, h2, -⟩
      exact ⟨h1, h2⟩
    · rintro ⟨h1, h2⟩
      have hb := ascii_run_bound h2
      by_cases he : s + t.length = p.length
      · obtain ⟨-, -, h4⟩ := hend s t h2 he
        subst h4
        exact absurd h1 hml
      · exact ⟨h1, h2, by omega⟩

theorem ascii_flush_pairwise {m : Nat} (hm : 1 ≤ m) {p : List Nat} {a : AsciiTrack}
    (h : AsciiInv m p a) : (ascii_track_flush m a).Pairwise (fun x y => x.1 < y.1) := by
  obtain ⟨-, hS, hP, hB, -⟩ := h
  unfold ascii_track_flush
  by_cases hml : m ≤ a.cand.length
  · have hne : a.cand ≠ [] := by
      intro h0
      rw [h0] at hml
      simp at hml
      omega
    have hs := hS hne
    rw [if_pos hml, List.pairwise_append]
    refine ⟨hP, List.pairwise_singleton _ _, ?_⟩
    intro x hx y hy
    rw [List.mem_singleton] at hy
    subst hy
    have := hB x hx
    show x.1 < a.start
    omega
  · rw [if_neg hml]
    exact hP

theorem mem_matches_of (tr : Track) (out : List Match) (s : Nat) (t : List Nat) :
    (s, t) ∈ matches_of tr out ↔ ({ track := tr, start_offset := s, text := t } : Match) ∈ out := by
  unfold matches_of
  simp only [List.mem_map, List.mem_filter, decide_eq_true_eq, Prod.mk.injEq]
  constructor
  · rintro ⟨x, ⟨hx, htr⟩, hs, ht⟩
    cases x
    simp only at htr hs ht
    subst htr hs ht
    exact hx
  · intro h
    exact ⟨_, ⟨h, rfl⟩, rfl, rfl⟩

theorem min_len_le_iff {x : Int} (h : 1 ≤ x) (n : Nat) : to_size_t x ≤ n ↔ x ≤ (n : Int) := by
  rw [(to_size_t_of_pos h).1]
  omega

theorem is_printable_iff (c : Nat) : is_printable c = true ↔ (0x20 ≤ c ∧ c ≤ 0x7E) := by
  unfold is_printable
  simp

theorem count_match_of_pairwise {tr : Track} {out : List Match}
    (h : (matches_of tr out).Pairwise (fun x y => x.1 < y.1)) {s : Nat} {t : List Nat}
    (hx : ({ track := tr, start_offset := s, text := t } : Match) ∈ out) :
    out.count { track := tr, start_offset := s, text := t } = 1 := by
  unfold matches_of at h
  rw [List.pairwise_map] at h
  have hnd : (out.filter (fun m => decide (m.track = tr))).Nodup :=
    h.imp (fun {a b} hab he => by rw [he] at hab; exact Nat.lt_irrefl _ hab)
  have hmem : ({ track := tr, start_offset := s, text := t } : Match) ∈
      out.filter (fun m => decide (m.track = tr)) := by
    rw [List.mem_filter]
    exact ⟨hx, by simp⟩
  have hc := List.count_eq_one_of_mem hnd hmem
  rw [List.count_filter (by simp)] at hc
  exact hc

/-! ## The two-byte track -/

theorem pair_at_iff (p : List Nat) (j : Nat) :
    pair_at p j = true ↔ (printable_at p j = true ∧ p[j + 1]? = some 0) := by
  unfold pair_at
  simp

theorem pair_at_of_last {p : List Nat} {j : Nat} (h : p.length ≤ j + 1) :
    pair_at p j = false := by
  unfold pair_at
  rw [List.getElem?_eq_none h]
  simp

theorem pair_at_congr {p q : List Nat} {j : Nat} (h0 : q[j]? = p[j]?) (h1 : q[j + 1]? = p[j + 1]?) :
    pair_at q j = pair_at p j := by
  unfold pair_at printable_at
  rw [h0, h1]

theorem pair_at_snoc_lt (p : List Nat) (b : Nat) {j : Nat} (h : j + 1 < p.length) :
    pair_at (p ++ [b]) j = pair_at p j :=
  pair_at_congr (getElem?_snoc_lt p b (by omega)) (getElem?_snoc_lt p b h)

theorem pair_at_snoc_last (p : List Nat) (b : Nat) {j : Nat} (h : j + 1 = p.length) :
    pair_at (p ++ [b]) j = (printable_at p j && decide (b = 0)) := by
  unfold pair_at
  rw [printable_at_snoc_lt p b (by omega), h, getElem?_snoc_eq]
  simp

theorem pair_at_of_get {p : List Nat} {j x : Nat} (h0 : p[j]? = some x)
    (hx : is_printable x = true) (h1 : p[j + 1]? = some 0) : pair_at p j = true := by
  rw [pair_at_iff, printable_at_of_get h0]
  exact ⟨hx, h1⟩

theorem pair_run_bound {p : List Nat} {s : Nat} {t : List Nat} (h : IsPairRun p s t) :
    s + 2 * t.length ≤ p.length := by
  obtain ⟨hne, hc, -, -, -⟩ := h
  have hpos : 0 < t.length := List.length_pos.2 hne
  have := lt_length_of_getElem? (hc (t.length - 1) (by omega)).2
  omega

theorem pair_run_pair_at {p : List Nat} {s : Nat} {t : List Nat} (h : IsPairRun p s t)
    {j : Nat} (hj : j < t.length) : pair_at p (s + 2 * j) = true := by
  obtain ⟨-, hc, hp, -, -⟩ := h
  obtain ⟨x, hx1, hx2⟩ := getElem?_of_lt hj
  have := hc j hj
  rw [hx1] at this
  exact pair_at_of_get this.1 (hp x hx2) this.2

theorem pair_run_congr {p q : List Nat} {s : Nat} {t : List Nat}
    (hagree : ∀ i, i < s + 2 * t.length → q[i]? = p[i]?)
    (hright : pair_at q (s + 2 * t.length) = pair_at p (s + 2 * t.length)) :
    IsPairRun q s t ↔ IsPairRun p s t := by
  have key : ∀ {p q : List Nat}, (∀ i, i < s + 2 * t.length → q[i]? = p[i]?) →
      pair_at q (s + 2 * t.length) = pair_at p (s + 2 * t.length) →
      IsPairRun p s t → IsPairRun q s t := by
    intro p q hag hri ⟨hne, hc, hp, hl, hr⟩
    have hpos : 0 < t.length := List.length_pos.2 hne
    refine ⟨hne, ?_, hp, ?_, ?_⟩
    · intro j hj
      rw [hag (s + 2 * j) (by omega), hag (s + 2 * j + 1) (by omega)]
      exact hc j hj
    · intro j hj
      rw [pair_at_congr (hag j (by omega)) (hag (j + 1) (by omega))]
      exact hl j hj
    · rw [hri]
      exact hr
  exact ⟨key (fun i hi => (hagree i hi).symm) hright.symm, key hagree hright⟩

theorem pair_tail_pair_at {p : List Nat} {e : Nat} {c : List Nat} (h : IsPairTail p e c)
    {i : Nat} (h1 : e ≤ i + 2 * c.length) (h2 : i < e) (h3 : (e - i) % 2 = 0) :
    pair_at p i = true := by
  obtain ⟨-, -, hc, hp, -⟩ := h
  have hj : (i + 2 * c.length - e) / 2 < c.length := by omega
  obtain ⟨x, hx1, hx2⟩ := getElem?_of_lt hj
  have := hc i ((i + 2 * c.length - e) / 2) (by omega) hj
  rw [hx1] at this
  exact pair_at_of_get this.1 (hp x hx2) this.2

theorem pair_tail_run {p : List Nat} {e : Nat} {c : List Nat} (h : IsPairTail p e c)
    (hne : c ≠ []) {s : Nat} (hs : s + 2 * c.length = e) (hr : pair_at p e = false) :
    IsPairRun p s c := by
  obtain ⟨-, -, hc, hp, hb⟩ := h
  refine ⟨hne, ?_, hp, ?_, ?_⟩
  · intro j hj
    exact hc (s + 2 * j) j (by omega) hj
  · intro j hj
    exact hb j (by omega)
  · rw [hs]
    exact hr

theorem pair_tail_unique {p : List Nat} {e : Nat} {c : List Nat} (h : IsPairTail p e c)
    {s : Nat} {t : List Nat} (hr : IsPairRun p s t) (hs : s + 2 * t.length = e) : t = c := by
  have hpos : 0 < t.length := List.length_pos.2 hr.1
  have hce : 2 * c.length ≤ e := h.1
  have hlen : t.length = c.length := by
    rcases Nat.lt_trichotomy t.length c.length with hlt | heq | hgt
    · have h1 := pair_tail_pair_at h (show e ≤ (s - 2) + 2 * c.length by omega) (by omega)
        (by omega)
      have h2 := hr.2.2.2.1 (s - 2) (by omega)
      rw [h1] at h2
      exact Bool.noConfusion h2
    · exact heq
    · have h1 := pair_run_pair_at hr (show t.length - c.length - 1 < t.length by omega)
      have h2 := h.2.2.2.2 (s + 2 * (t.length - c.length - 1)) (by omega)
      rw [h1] at h2
      exact Bool.noConfusion h2
  apply List.ext_getElem?
  intro j
  by_cases hj : j < t.length
  · rw [← (hr.2.1 j hj).1]
    exact (h.2.2.1 (s + 2 * j) j (by omega) (by omega)).1
  · rw [List.getElem?_eq_none (by omega), List.getElem?_eq_none (by omega)]

theorem pair_run_last_zero {q : List Nat} {s : Nat} {t : List Nat} (h : IsPairRun q s t)
    {i : Nat} (hi : i + 1 = s + 2 * t.length) : q[i]? = some 0 := by
  have hpos : 0 < t.length := List.length_pos.2 h.1
  have := (h.2.1 (t.length - 1) (by omega)).2
  rw [show s + 2 * (t.length - 1) + 1 = i by omega] at this
  exact this

theorem pair_run_snoc (p : List Nat) (b : Nat) {s : Nat} {t : List Nat}
    (h : s + 2 * t.length ≤ p.length)
    (hedge : s + 2 * t.length + 1 = p.length → pair_at (p ++ [b]) (s + 2 * t.length) = false) :
    IsPairRun (p ++ [b]) s t ↔ IsPairRun p s t := by
  apply pair_run_congr
  · intro i hi
    exact getElem?_snoc_lt p b (by omega)
  · rcases Nat.lt_trichotomy (s + 2 * t.length + 1) p.length with hlt | heq | hgt
    · exact pair_at_snoc_lt p b hlt
    · rw [hedge heq, pair_at_of_last (by omega)]
    · rw [pair_at_of_last (by simp; omega), pair_at_of_last (by omega)]

theorem pair_tail_snoc {p : List Nat} {e : Nat} {c : List Nat} (h : IsPairTail p e c) (b : Nat) :
    IsPairTail (p ++ [b]) e c := by
  obtain ⟨h1, h2, hc, hp, hb⟩ := h
  refine ⟨h1, by simp; omega, ?_, hp, ?_⟩
  · intro i j hij hj
    rw [getElem?_snoc_lt p b (show i < p.length by omega),
      getElem?_snoc_lt p b (show i + 1 < p.length by omega)]
    exact hc i j hij hj
  · intro j hj
    rw [pair_at_snoc_lt p b (by omega)]
    exact hb j hj

theorem pair_tail_nil {p : List Nat} {e : Nat} (he : e ≤ p.length)
    (h : ∀ j, j + 2 = e → pair_at p j = false) : IsPairTail p e [] :=
  ⟨by simp, he, fun _ j _ hj => absurd hj (Nat.not_lt_zero j), fun _ hx => by simp at hx,
    fun j hj => h j (by simpa using hj)⟩

theorem pair_tail_extend {p : List Nat} {e : Nat} {c : List Nat} (h : IsPairTail p e c)
    (he : e + 1 = p.length) {x : Nat} (hx : p[e]? = some x) (hpx : is_printable x = true) :
    IsPairTail (p ++ [0]) (e + 2) (c ++ [x]) := by
  obtain ⟨h1, h2, hc, hp, hb⟩ := h
  refine ⟨by simp; omega, by simp; omega, ?_, ?_, ?_⟩
  · intro i j hij hj
    simp only [List.length_append, List.length_singleton] at hij hj
    by_cases hjc : j < c.length
    · rw [getElem?_snoc_lt p 0 (show i < p.length by omega),
        getElem?_snoc_lt p 0 (show i + 1 < p.length by omega), List.getElem?_append_left hjc]
      exact hc i j (by omega) hjc
    · have hi : i = e := by omega
      have hj2 : j = c.length := by omega
      subst hi hj2
      rw [getElem?_snoc_lt p 0 (show i < p.length by omega), he, getElem?_snoc_eq,
        List.getElem?_concat_length]
      exact ⟨hx, rfl⟩
  · intro y hy
    rcases List.mem_append.1 hy with hy | hy
    · exact hp y hy
    · simp at hy; subst hy; exact hpx
  · intro j hj
    simp only [List.length_append, List.length_singleton] at hj
    rw [pair_at_snoc_lt p 0 (by omega)]
    exact hb j (by omega)

/-- Runs closed by a flush: when the candidate chain ending at `e` is flushed on
reading `b`, the runs of the extended stream that end before the new frontier
`e2` are the old closed runs and the flushed candidate. -/
theorem pair_flush_runs {p : List Nat} {e : Nat} {c : List Nat} (b e2 start : Nat)
    (hT : IsPairTail p e c) (hS : c ≠ [] → start + 2 * c.length = e)
    (hpe : pair_at p e = false) (hpe2 : pair_at (p ++ [b]) e = false)
    (hedge : ∀ j, j + 1 = p.length → j < e → pair_at (p ++ [b]) j = false)
    (hgap : ∀ s t, IsPairRun (p ++ [b]) s t → s + 2 * t.length < e2 → s + 2 * t.length ≤ e)
    (hee : e < e2) (s : Nat) (t : List Nat) :
    (IsPairRun (p ++ [b]) s t ∧ s + 2 * t.length < e2) ↔
      ((IsPairRun p s t ∧ s + 2 * t.length < e) ∨ (c ≠ [] ∧ s = start ∧ t = c)) := by
  have hen : e ≤ p.length := hT.2.1
  have hiff : s + 2 * t.length ≤ e → (IsPairRun (p ++ [b]) s t ↔ IsPairRun p s t) := by
    intro hle
    apply pair_run_snoc p b (by omega)
    intro h1
    by_cases h2 : s + 2 * t.length = e
    · rw [h2]; exact hpe2
    · exact hedge _ h1 (by omega)
  constructor
  · rintro ⟨hr, hlt⟩
    have hle := hgap s t hr hlt
    have hr2 := (hiff hle).1 hr
    by_cases he : s + 2 * t.length = e
    · right
      have ht := pair_tail_unique hT hr2 he
      subst ht
      have := hS hr2.1
      exact ⟨hr2.1, by omega, rfl⟩
    · left
      exact ⟨hr2, by omega⟩
  · rintro (⟨hr, hlt⟩ | ⟨hne, hs, ht⟩)
    · exact ⟨(hiff (by omega)).2 hr, by omega⟩
    · subst hs ht
      have hs := hS hne
      exact ⟨(hiff (by omega)).2 (pair_tail_run hT hne hs hpe), by omega⟩

/-- Bookkeeping of a flush: the reported list after the candidate is flushed
against threshold `m`. -/
theorem pair_flush_assemble {m : Nat} (hm : 1 ≤ m) {q : List Nat} {e e2 start : Nat}
    {c : List Nat} {out : List (Nat × List Nat)} {R : Nat → List Nat → Prop}
    (hS : c ≠ [] → start + 2 * c.length = e)
    (hP : out.Pairwise (fun x y => x.1 < y.1))
    (hB : ∀ x ∈ out, x.1 + 2 * x.2.length + 2 * c.length < e)
    (hM : ∀ s t, (s, t) ∈ out ↔ (m ≤ t.length ∧ R s t))
    (hee : e < e2)
    (hrun : ∀ s t, (IsPairRun q s t ∧ s + 2 * t.length < e2) ↔
      (R s t ∨ (c ≠ [] ∧ s = start ∧ t = c))) :
    (if m ≤ c.length then out ++ [(start, c)] else out).Pairwise (fun x y => x.1 < y.1) ∧
    (∀ x ∈ (if m ≤ c.length then out ++ [(start, c)] else out),
      x.1 + 2 * x.2.length + 2 * ([] : List Nat).length < e2) ∧
    (∀ s t, (s, t) ∈ (if m ≤ c.length then out ++ [(start, c)] else out) ↔
      (m ≤ t.length ∧ IsPairRun q s t ∧ s + 2 * t.length < e2)) := by
  by_cases hml : m ≤ c.length
  · have hne : c ≠ [] := by
      intro h0
      rw [h0] at hml
      simp at hml
      omega
    have hs := hS hne
    simp only [if_pos hml]
    refine ⟨?_, ?_, ?_⟩
    · rw [List.pairwise_append]
      refine ⟨hP, List.pairwise_singleton _ _, ?_⟩
      intro x hx y hy
      rw [List.mem_singleton] at hy
      subst hy
      have := hB x hx
      show x.1 < start
      omega
    · intro x hx
      rcases List.mem_append.1 hx with hx | hx
      · have := hB x hx
        simp only [List.length_nil]
        omega
      · rw [List.mem_singleton] at hx
        subst hx
        simp only [List.length_nil]
        omega
    · intro s t
      rw [hrun s t, List.mem_append, List.mem_singleton, hM s t, Prod.mk.injEq]
      constructor
      · rintro (⟨h1, h2⟩ | ⟨h1, h2⟩)
        · exact ⟨h1, Or.inl h2⟩
        · subst h1 h2
          exact ⟨hml, Or.inr ⟨hne, rfl, rfl⟩⟩
      · rintro ⟨h1, h2 | ⟨-, h3, h4⟩⟩
        · exact Or.inl ⟨h1, h2⟩
        · exact Or.inr ⟨h3, h4⟩
  · simp only [if_neg hml]
    refine ⟨hP, ?_, ?_⟩
    · intro x hx
      have := hB x hx
      simp only [List.length_nil]
      omega
    · intro s t
      rw [hrun s t, hM s t]
      constructor
      · rintro ⟨h1, h2⟩
        exact ⟨h1, Or.inl h2⟩
      · rintro ⟨h1, h2 | ⟨-, -, h4⟩⟩
        · exact ⟨h1, h2⟩
        · subst h4
          exact absurd h1 hml

theorem pair_track_step_pend (m : Nat) (u : PairTrack) {b : Nat} (pos : Nat)
    (h0 : u.state = 0) (h : is_printable b = true) :
    pair_track_step m u b pos = { u with pending_char := b, pending_start := pos, state := 1 } := by
  unfold pair_track_step
  rw [if_pos h0, if_pos h]

theorem pair_track_step_break (m : Nat) (u : PairTrack) {b : Nat} (pos : Nat)
    (h0 : u.state = 0) (h : is_printable b = false) :
    pair_track_step m u b pos =
      { u with
        cand := []
        out := if m ≤ u.cand.length then u.out ++ [(u.start, u.cand)] else u.out } := by
  unfold pair_track_step
  rw [if_pos h0, if_neg (by simp [h])]

theorem pair_track_step_confirm (m : Nat) (u : PairTrack) {b : Nat} (pos : Nat)
    (h1 : u.state ≠ 0) (h : b = 0) :
    pair_track_step m u b pos =
      { u with
        cand := u.cand ++ [u.pending_char]
        start := if u.cand.length = 0 then u.pending_start else u.start
        state := 0 } := by
  unfold pair_track_step
  rw [if_neg h1, if_pos h]

theorem pair_track_step_fail_pend (m : Nat) (u : PairTrack) {b : Nat} (pos : Nat)
    (h1 : u.state ≠ 0) (h : b ≠ 0) (hp : is_printable b = true) :
    pair_track_step m u b pos =
      { u with
        cand := []
        out := if m ≤ u.cand.length then u.out ++ [(u.start, u.cand)] else u.out
        pending_char := b
        pending_start := pos
        state := 1 } := by
  unfold pair_track_step
  rw [if_neg h1, if_neg h]
  simp only [hp, if_true]

theorem pair_track_step_fail_break (m : Nat) (u : PairTrack) {b : Nat} (pos : Nat)
    (h1 : u.state ≠ 0) (h : b ≠ 0) (hp : is_printable b = false) :
    pair_track_step m u b pos =
      { u with
        cand := []
        out := if m ≤ u.cand.length then u.out ++ [(u.start, u.cand)] else u.out
        state := 0 } := by
  unfold pair_track_step
  rw [if_neg h1, if_neg h]
  simp only [hp, Bool.false_eq_true, if_false]

theorem pair_at_of_next {p : List Nat} {j x : Nat} (h : p[j + 1]? = some x) (hx : x ≠ 0) :
    pair_at p j = false := by
  unfold pair_at
  rw [h]
  simp [hx]

theorem pair_at_snoc_last_ne (p : List Nat) {b : Nat} (hb : b ≠ 0) {j : Nat}
    (h : j + 1 = p.length) : pair_at (p ++ [b]) j = false := by
  rw [pair_at_snoc_last p b h]
  simp [hb]

theorem pair_at_snoc_last_np (p : List Nat) (b : Nat) {j : Nat}
    (h : j + 1 = p.length) (hj : printable_at p j = false) : pair_at (p ++ [b]) j = false := by
  rw [pair_at_snoc_last p b h, hj]
  rfl

theorem pair_inv_init (m : Nat) : PairInv m [] pair_track_init := by
  refine ⟨0, Or.inl rfl, fun _ => ⟨rfl, fun j hj => by simp at hj⟩, fun h => absurd rfl h,
    pair_tail_nil (Nat.le_refl _) (fun j hj => by omega), fun h => absurd rfl h,
    List.Pairwise.nil, fun x hx => ?_, fun s t => ?_⟩
  · simp [pair_track_init] at hx
  · constructor
    · intro h
      simp [pair_track_init] at h
    · rintro ⟨-, -, h⟩
      omega

theorem pair_inv_step {m : Nat} (hm : 1 ≤ m) {p : List Nat} {u : PairTrack} (b : Nat)
    (h : PairInv m p u) : PairInv m (p ++ [b]) (pair_track_step m u b p.length) := by
  obtain ⟨e, hst, h0, h1, hT, hS, hP, hB, hM⟩ := h
  have hlen : (p ++ [b]).length = p.length + 1 := by simp
  by_cases hs0 : u.state = 0
  · obtain ⟨he, hlast⟩ := h0 hs0
    subst he
    cases hpr : is_printable b
    · -- state 0, run-breaking byte: flush
      rw [pair_track_step_break m u p.length hs0 hpr]
      have hfl := pair_flush_assemble hm hS hP hB hM (Nat.lt_succ_self p.length)
        (pair_flush_runs b (p.length + 1) u.start hT hS (pair_at_of_last (by omega))
          (pair_at_of_last (by simp))
          (fun j hj _ => pair_at_snoc_last_np p b hj (hlast j hj))
          (fun s t _ hlt => by omega) (Nat.lt_succ_self p.length))
      refine ⟨p.length + 1, Or.inl hs0, fun _ => ⟨hlen.symm, fun j hj => ?_⟩,
        fun hne => absurd hs0 hne, ?_, fun hne => absurd rfl hne, hfl.1, hfl.2.1, hfl.2.2⟩
      · rw [hlen] at hj
        have : j = p.length := by omega
        rw [this, printable_at_snoc_eq]
        exact hpr
      · exact pair_tail_nil (by simp) (fun j hj => pair_at_snoc_last_np p b (by omega)
          (hlast j (by omega)))
    · -- state 0, printable byte: becomes pending
      rw [pair_track_step_pend m u p.length hs0 hpr]
      have hb0 : b ≠ 0 := is_printable_ne_zero hpr
      refine ⟨p.length, Or.inr rfl, fun hz => absurd hz Nat.one_ne_zero,
        fun _ => ⟨hlen.symm, getElem?_snoc_eq p b, hpr, rfl⟩, pair_tail_snoc hT b, hS, hP, hB, ?_⟩
      intro s t
      show (s, t) ∈ u.out ↔ _
      rw [hM s t]
      constructor
      · rintro ⟨h2, h3, h4⟩
        exact ⟨h2, (pair_run_snoc p b (by omega) (fun hh => pair_at_snoc_last_ne p hb0 hh)).2 h3,
          h4⟩
      · rintro ⟨h2, h3, h4⟩
        exact ⟨h2, (pair_run_snoc p b (by omega) (fun hh => pair_at_snoc_last_ne p hb0 hh)).1 h3,
          h4⟩
  · obtain ⟨he, hpe, hpp, hps⟩ := h1 hs0
    have hp0 : u.pending_char ≠ 0 := is_printable_ne_zero hpp
    by_cases hz : b = 0
    · -- state 1, the null partner: the pending character is committed
      rw [pair_track_step_confirm m u p.length hs0 hz]
      subst hz
      refine ⟨e + 2, Or.inl rfl, fun _ => ⟨by rw [hlen]; omega, fun j hj => ?_⟩,
        fun hne => absurd rfl hne, pair_tail_extend hT he hpe hpp, ?_, hP, ?_, ?_⟩
      · rw [hlen] at hj
        have : j = p.length := by omega
        rw [this, printable_at_snoc_eq]
        rfl
      · intro _
        show (if u.cand.length = 0 then u.pending_start else u.start) +
          2 * (u.cand ++ [u.pending_char]).length = e + 2
        rw [List.length_append, List.length_singleton]
        by_cases hc0 : u.cand.length = 0
        · rw [if_pos hc0]; omega
        · rw [if_neg hc0]
          have := hS (fun hn => hc0 (by rw [hn]; rfl))
          omega
      · intro x hx
        have := hB x hx
        show x.1 + 2 * x.2.length + 2 * (u.cand ++ [u.pending_char]).length < e + 2
        rw [List.length_append, List.length_singleton]
        omega
      · intro s t
        show (s, t) ∈ u.out ↔ _
        rw [hM s t]
        constructor
        · rintro ⟨h2, h3, h4⟩
          exact ⟨h2, (pair_run_snoc p 0 (by omega) (fun hh => by omega)).2 h3, by omega⟩
        · rintro ⟨h2, h3, h4⟩
          have hlt : s + 2 * t.length < e := by
            rcases Nat.lt_trichotomy (s + 2 * t.length) e with hlt | heq | hgt
            · exact hlt
            · have hr := h3.2.2.2.2
              rw [heq, pair_at_snoc_last p 0 he, printable_at_of_get hpe, hpp] at hr
              exact Bool.noConfusion hr
            · have hz := pair_run_last_zero h3 (show e + 1 = s + 2 * t.length by omega)
              rw [getElem?_snoc_lt p 0 (by omega), hpe] at hz
              exact absurd (Option.some.inj hz) hp0
          exact ⟨h2, (pair_run_snoc p 0 (by omega) (fun hh => by omega)).1 h3, hlt⟩
    · -- state 1, pairing failed: flush, then re-evaluate the byte
      have hpe1 : pair_at p e = false := pair_at_of_last (by omega)
      have hpe2 : pair_at (p ++ [b]) e = false := pair_at_snoc_last_ne p hz he
      have hedge : ∀ j, j + 1 = p.length → j < e → pair_at (p ++ [b]) j = false :=
        fun j hj hje => by omega
      cases hpr : is_printable b
      · rw [pair_track_step_fail_break m u p.length hs0 hz hpr]
        have hgap : ∀ s t, IsPairRun (p ++ [b]) s t → s + 2 * t.length < e + 2 →
            s + 2 * t.length ≤ e := by
          intro s t hr hlt
          by_contra hn
          have hz := pair_run_last_zero hr (show e + 1 = s + 2 * t.length by omega)
          rw [getElem?_snoc_lt p b (by omega), hpe] at hz
          exact absurd (Option.some.inj hz) hp0
        have hfl := pair_flush_assemble hm hS hP hB hM (show e < e + 2 by omega)
          (pair_flush_runs b (e + 2) u.start hT hS hpe1 hpe2 hedge hgap (by omega))
        refine ⟨e + 2, Or.inl rfl, fun _ => ⟨by rw [hlen]; omega, fun j hj => ?_⟩,
          fun hne => absurd rfl hne, ?_, fun hne => absurd rfl hne, hfl.1, hfl.2.1, hfl.2.2⟩
        · rw [hlen] at hj
          have : j = p.length := by omega
          rw [this, printable_at_snoc_eq]
          exact hpr
        · exact pair_tail_nil (by rw [hlen]; omega)
            (fun j hj => pair_at_snoc_last_ne p hz (by omega))
      · rw [pair_track_step_fail_pend m u p.length hs0 hz hpr]
        have hfl := pair_flush_assemble hm hS hP hB hM (show e < e + 1 by omega)
          (pair_flush_runs b (e + 1) u.start hT hS hpe1 hpe2 hedge
            (fun s t _ hlt => by omega) (by omega))
        refine ⟨e + 1, Or.inr rfl, fun hz1 => absurd hz1 Nat.one_ne_zero,
          fun _ => ⟨by rw [hlen]; omega, ?_, hpr, by show p.length = e + 1; omega⟩, ?_,
          fun hne => absurd rfl hne, hfl.1, hfl.2.1, hfl.2.2⟩
        · rw [he]
          exact getElem?_snoc_eq p b
        · apply pair_tail_nil (by rw [hlen]; omega)
          intro j hj
          rw [pair_at_snoc_lt p b (by omega)]
          apply pair_at_of_next _ hp0
          rw [show j + 1 = e by omega]
          exact hpe

theorem pair_inv_run {m : Nat} (hm : 1 ≤ m) (p : List Nat) :
    PairInv m p (pair_track_run m p) := by
  induction p using List.reverseRecOn with
  | nil => exact pair_inv_init m
  | append_singleton p b ih =>
    unfold pair_track_run
    rw [for_loop_snoc]
    exact pair_inv_step hm b ih

theorem pair_flush_mem {m : Nat} (hm : 1 ≤ m) {p : List Nat} {u : PairTrack}
    (h : PairInv m p u) (s : Nat) (t : List Nat) :
    (s, t) ∈ pair_track_flush m u ↔ (m ≤ t.length ∧ IsPairRun p s t) := by
  obtain ⟨e, -, h0, h1, hT, hS, -, -, hM⟩ := h
  have hpe : pair_at p e = false := by
    by_cases hs0 : u.state = 0
    · exact pair_at_of_last (by have := (h0 hs0).1; omega)
    · exact pair_at_of_last (by have := (h1 hs0).1; omega)
  have hle : ∀ s t, IsPairRun p s t → s + 2 * t.length ≤ e := by
    intro s t hr
    have hb := pair_run_bound hr
    by_cases hs0 : u.state = 0
    · have := (h0 hs0).1
      omega
    · obtain ⟨he, hpc, hpp, -⟩ := h1 hs0
      by_contra hn
      have hz := pair_run_last_zero hr (show e + 1 = s + 2 * t.length by omega)
      rw [hpc] at hz
      exact absurd (Option.some.inj hz) (is_printable_ne_zero hpp)
  have hend : ∀ s t, IsPairRun p s t → s + 2 * t.length = e →
      u.cand ≠ [] ∧ s = u.start ∧ t = u.cand := by
    intro s t hr he
    have ht := pair_tail_unique hT hr he
    subst ht
    have := hS hr.1
    exact ⟨hr.1, by omega, rfl⟩
  unfold pair_track_flush
  by_cases hml : m ≤ u.cand.length
  · have hne : u.cand ≠ [] := by
      intro h0
      rw [h0] at hml
      simp at hml
      omega
    rw [if_pos hml, List.mem_append, List.mem_singleton, hM s t, Prod.mk.injEq]
    constructor
    · rintro (⟨h2, h3, -⟩ | ⟨h2, h3⟩)
      · exact ⟨h2, h3⟩
      · subst h2 h3
        exact ⟨hml, pair_tail_run hT hne (hS hne) hpe⟩
    · rintro ⟨h2, h3⟩
      have hb := hle s t h3
      by_cases he : s + 2 * t.length = e
      · obtain ⟨-, h4, h5⟩ := hend s t h3 he
        exact Or.inr ⟨h4, h5⟩
      · exact Or.inl ⟨h2, h3, by omega⟩
  · rw [if_neg hml, hM s t]
    constructor
    · rintro ⟨h2, h3, -⟩
      exact ⟨h2, h3⟩
    · rintro ⟨h2, h3⟩
      have hb := hle s t h3
      by_cases he : s + 2 * t.length = e
      · obtain ⟨-, -, h5⟩ := hend s t h3 he
        subst h5
        exact absurd h2 hml
      · exact ⟨h2, h3, by omega⟩

theorem pair_flush_pairwise {m : Nat} (hm : 1 ≤ m) {p : List Nat} {u : PairTrack}
    (h : PairInv m p u) : (pair_track_flush m u).Pairwise (fun x y => x.1 < y.1) := by
  obtain ⟨e, -, -, -, -, hS, hP, hB, -⟩ := h
  unfold pair_track_flush
  by_cases hml : m ≤ u.cand.length
  · have hne : u.cand ≠ [] := by
      intro h0
      rw [h0] at hml
      simp at hml
      omega
    have hs := hS hne
    rw [if_pos hml, List.pairwise_append]
    refine ⟨hP, List.pairwise_singleton _ _, ?_⟩
    intro x hx y hy
    rw [List.mem_singleton] at hy
    subst hy
    have := hB x hx
    show x.1 < u.start
    omega
  · rw [if_neg hml]
    exact hP

/-- After a stream whose last byte is printable, the two-byte reference track is
in state 1 with that byte pending, and no pair run reaches that byte. -/
theorem pair_inv_last_printable {m : Nat} {p : List Nat} {u : PairTrack} (h : PairInv m p u)
    {x : Nat} (hx : p.getLast? = some x) (hpx : is_printable x = true) :
    u.state = 1 ∧ u.pending_char = x ∧ u.pending_start + 1 = p.length ∧
      ∀ s t, IsPairRun p s t → s + 2 * t.length + 1 ≤ p.length := by
  obtain ⟨e, hst, h0, h1, -⟩ := h
  have hlast : p[p.length - 1]? = some x := by
    rw [List.getLast?_eq_getElem?] at hx
    exact hx
  have hpos : 0 < p.length := by
    have := lt_length_of_getElem? hlast
    omega
  have hs1 : u.state ≠ 0 := by
    intro hs0
    have := (h0 hs0).2 (p.length - 1) (by omega)
    rw [printable_at_of_get hlast, hpx] at this
    exact Bool.noConfusion this
  obtain ⟨he, hpc, -, hps⟩ := h1 hs1
  have hee : e = p.length - 1 := by omega
  rw [hee, hlast] at hpc
  refine ⟨by omega, (Option.some.inj hpc).symm, by omega, ?_⟩
  intro s t hr
  have hb := pair_run_bound hr
  by_contra hn
  have hz := pair_run_last_zero hr (show p.length - 1 + 1 = s + 2 * t.length by omega)
  rw [hlast] at hz
  exact absurd (Option.some.inj hz) (is_printable_ne_zero hpx)

/-! ## The specification, claim by claim -/

/-- C1 (single-byte track, exact characterisation).  For every stream, delivered
in any non-empty chunks, and every `min_len ≥ 1`, the single-byte matches printed
by `process_file` are listed by strictly increasing start offset, and a pair
(offset, text) is among them exactly when the text is a maximal run of printable
bytes of the stream starting at that offset, with its full content, whose length
is at least `min_len`.  Hence shorter runs are dropped and leak into no other
match. -/
theorem single_byte_track_exact (fresh : Nat → Nat) (cfg : Config) (reads : List (List Nat))
    (hm : 1 ≤ cfg.min_len) (hc : ∀ r ∈ reads, r ≠ []) :
    (matches_of Track.ascii (process_file fresh cfg (some reads))).Pairwise
        (fun x y => x.1 < y.1) ∧
      ∀ s t, (s, t) ∈ matches_of Track.ascii (process_file fresh cfg (some reads)) ↔
        (IsAsciiRun reads.flatten s t ∧ cfg.min_len ≤ (t.length : Int)) := by
  have hm1 := (to_size_t_of_pos hm).2
  have hinv := ascii_inv_run hm1 reads.flatten
  rw [process_file_ascii fresh cfg reads hc]
  refine ⟨ascii_flush_pairwise hm1 hinv, fun s t => ?_⟩
  rw [ascii_flush_mem hm1 hinv s t, min_len_le_iff hm]
  exact And.comm

/-- Witness for C1 on the stream `AB`, `C 00 D` with `min_len = 2`. -/
theorem single_byte_track_exact_witness :
    (1 : Int) ≤ (Config.mk 2 0 false).min_len ∧
      (∀ r ∈ [[0x41, 0x42], [0x43, 0x00, 0x44]], r ≠ ([] : List Nat)) ∧
      (matches_of Track.ascii (process_file (fun _ => 0xAA) (Config.mk 2 0 false)
        (some [[0x41, 0x42], [0x43, 0x00, 0x44]]))).Pairwise (fun x y => x.1 < y.1) :=
  ⟨by decide, by decide,
    (single_byte_track_exact (fun _ => 0xAA) (Config.mk 2 0 false)
      [[0x41, 0x42], [0x43, 0x00, 0x44]] (by decide) (by decide)).1⟩

/-- C2 (two-byte track, exact characterisation).  For every stream, delivered in
any non-empty chunks, and every `min_len ≥ 1`, the two-byte matches printed by
`process_file` are listed by strictly increasing start offset, and a pair
(offset, text) is among them exactly when the text is the sequence of printable
bytes of a maximal run of adjacent (printable, `0x00`) pairs starting at that
offset, with at least `min_len` pairs.  In particular no pair is lost after a
printable byte that is not followed by `0x00`. -/
theorem two_byte_track_exact (fresh : Nat → Nat) (cfg : Config) (reads : List (List Nat))
    (hm : 1 ≤ cfg.min_len) (hc : ∀ r ∈ reads, r ≠ []) :
    (matches_of Track.utf16 (process_file fresh cfg (some reads))).Pairwise
        (fun x y => x.1 < y.1) ∧
      ∀ s t, (s, t) ∈ matches_of Track.utf16 (process_file fresh cfg (some reads)) ↔
        (IsPairRun reads.flatten s t ∧ cfg.min_len ≤ (t.length : Int)) := by
  have hm1 := (to_size_t_of_pos hm).2
  have hinv := pair_inv_run hm1 reads.flatten
  rw [process_file_utf16 fresh cfg reads hc]
  refine ⟨pair_flush_pairwise hm1 hinv, fun s t => ?_⟩
  rw [pair_flush_mem hm1 hinv s t, min_len_le_iff hm]
  exact And.comm

/-- Witness for C2 on the stream `A B 00`, `C 00` with `min_len = 1`. -/
theorem two_byte_track_exact_witness :
    (1 : Int) ≤ (Config.mk 1 0 false).min_len ∧
      (∀ r ∈ [[0x41, 0x42, 0x00], [0x43, 0x00]], r ≠ ([] : List Nat)) ∧
      (matches_of Track.utf16 (process_file (fun _ => 0xAA) (Config.mk 1 0 false)
        (some [[0x41, 0x42, 0x00], [0x43, 0x00]]))).Pairwise (fun x y => x.1 < y.1) :=
  ⟨by decide, by decide,
    (two_byte_track_exact (fun _ => 0xAA) (Config.mk 1 0 false)
      [[0x41, 0x42, 0x00], [0x43, 0x00]] (by decide) (by decide)).1⟩

/-- C3.  For every stream and every `min_len ≥ 1`, every match printed by the
single-byte track has at least `min_len` characters, all of them in the range
`0x20 .. 0x7E`. -/
theorem single_byte_match_sound (fresh : Nat → Nat) (cfg : Config) (reads : List (List Nat))
    (hm : 1 ≤ cfg.min_len) (hc : ∀ r ∈ reads, r ≠ []) (x : Match)
    (hx : x ∈ process_file fresh cfg (some reads)) (ht : x.track = Track.ascii) :
    cfg.min_len ≤ (x.text.length : Int) ∧ ∀ b ∈ x.text, 0x20 ≤ b ∧ b ≤ 0x7E := by
  have hm1 := (to_size_t_of_pos hm).2
  have hinv := ascii_inv_run hm1 reads.flatten
  have hmem : (x.start_offset, x.text) ∈
      matches_of Track.ascii (process_file fresh cfg (some reads)) := by
    rw [mem_matches_of, ← ht]
    exact hx
  rw [process_file_ascii fresh cfg reads hc, ascii_flush_mem hm1 hinv, min_len_le_iff hm] at hmem
  exact ⟨hmem.1, fun b hb => (is_printable_iff b).1 (hmem.2.2.2.1 b hb)⟩

/-- Witness for C3: the match `ABC` at offset 0 of the stream `ABC 00 D`. -/
theorem single_byte_match_sound_witness :
    (1 : Int) ≤ (Config.mk 2 0 false).min_len ∧
      (∀ r ∈ [[0x41, 0x42, 0x43, 0x00, 0x44]], r ≠ ([] : List Nat)) ∧
      (Match.mk Track.ascii 0 [0x41, 0x42, 0x43]) ∈ process_file (fun _ => 0xAA)
        (Config.mk 2 0 false) (some [[0x41, 0x42, 0x43, 0x00, 0x44]]) ∧
      ((Config.mk 2 0 false).min_len ≤ (([0x41, 0x42, 0x43] : List Nat).length : Int) ∧
        ∀ b ∈ ([0x41, 0x42, 0x43] : List Nat), 0x20 ≤ b ∧ b ≤ 0x7E) :=
  ⟨by decide, by decide, by decide,
    single_byte_match_sound (fun _ => 0xAA) (Config.mk 2 0 false)
      [[0x41, 0x42, 0x43, 0x00, 0x44]] (by decide) (by decide)
      (Match.mk Track.ascii 0 [0x41, 0x42, 0x43]) (by decide) rfl⟩

/-- C4.  For every stream and every `min_len ≥ 1`, every match printed by the
two-byte track, with start offset `s` and text `c_0 .. c_(k-1)`, is drawn from
confirmed pairs: for every `j < k` the stream byte at offset `s + 2j` is `c_j`
and is printable, and the byte at offset `s + 2j + 1` is `0x00`; so
`s + 2k` does not exceed the stream length. -/
theorem two_byte_match_sound (fresh : Nat → Nat) (cfg : Config) (reads : List (List Nat))
    (hm : 1 ≤ cfg.min_len) (hc : ∀ r ∈ reads, r ≠ []) (x : Match)
    (hx : x ∈ process_file fresh cfg (some reads)) (ht : x.track = Track.utf16) :
    (∀ j, j < x.text.length → ∃ b, x.text[j]? = some b ∧
        reads.flatten[x.start_offset + 2 * j]? = some b ∧ is_printable b = true ∧
        reads.flatten[x.start_offset + 2 * j + 1]? = some 0) ∧
      x.start_offset + 2 * x.text.length ≤ reads.flatten.length := by
  have hm1 := (to_size_t_of_pos hm).2
  have hinv := pair_inv_run hm1 reads.flatten
  have hmem : (x.start_offset, x.text) ∈
      matches_of Track.utf16 (process_file fresh cfg (some reads)) := by
    rw [mem_matches_of, ← ht]
    exact hx
  rw [process_file_utf16 fresh cfg reads hc, pair_flush_mem hm1 hinv] at hmem
  obtain ⟨-, hr⟩ := hmem
  refine ⟨fun j hj => ?_, pair_run_bound hr⟩
  obtain ⟨b, hb1, hb2⟩ := getElem?_of_lt hj
  have := hr.2.1 j hj
  rw [hb1] at this
  exact ⟨b, hb1, this.1, hr.2.2.1 b hb2, this.2⟩

/-- Witness for C4: the match `B` at offset 1 of the stream `A B 00 C D`. -/
theorem two_byte_match_sound_witness :
    (1 : Int) ≤ (Config.mk 1 0 false).min_len ∧
      (∀ r ∈ [[0x41, 0x42, 0x00, 0x43, 0x44]], r ≠ ([] : List Nat)) ∧
      (Match.mk Track.utf16 1 [0x42]) ∈ process_file (fun _ => 0xAA)
        (Config.mk 1 0 false) (some [[0x41, 0x42, 0x00, 0x43, 0x44]]) ∧
      (Match.mk Track.utf16 1 [0x42]).start_offset +
        2 * (Match.mk Track.utf16 1 [0x42]).text.length ≤
        ([[0x41, 0x42, 0x00, 0x43, 0x44]] : List (List Nat)).flatten.length :=
  ⟨by decide, by decide, by decide,
    (two_byte_match_sound (fun _ => 0xAA) (Config.mk 1 0 false)
      [[0x41, 0x42, 0x00, 0x43, 0x44]] (by decide) (by decide)
      (Match.mk Track.utf16 1 [0x42]) (by decide) rfl).2⟩

/-- C5.  The classifier `is_printable` is a total function that accepts a byte
exactly when it lies in `0x20 .. 0x7E`: it rejects `0x00`, `0x1F`, `0x7F` and
every value from `0x80` on, and accepts `0x20` and `0x7E`. -/
theorem is_printable_spec :
    (∀ b : Nat, is_printable b = true ↔ (0x20 ≤ b ∧ b ≤ 0x7E)) ∧
      is_printable 0x00 = false ∧ is_printable 0x1F = false ∧ is_printable 0x7F = false ∧
      (∀ b : Nat, is_printable (0x80 + b) = false) ∧
      is_printable 0x20 = true ∧ is_printable 0x7E = true := by
  refine ⟨is_printable_iff, rfl, rfl, rfl, fun b => ?_, rfl, rfl⟩
  unfold is_printable
  simp
  omega

theorem for_loop_record (g : Nat) :
    ∀ (p : List Nat) (i : Nat) (acc : List (Nat × Nat)),
      for_loop (fun acc b current_pos => acc ++ [(current_pos, b)]) g i p acc =
        acc ++ p.enumFrom (g + i)
  | [], i, acc => by simp [for_loop]
  | b :: p, i, acc => by
    simp only [for_loop, List.enumFrom_cons]
    rw [for_loop_record g p (i + 1)]
    simp [Nat.add_assoc]

theorem scan_loop_single (fresh : Nat → Nat) (cfg : Config) (bytes : List Nat) :
    scan_loop fresh cfg [bytes] =
      for_loop (loop_body fresh cfg) 0 0 bytes (initial_state fresh) := by
  cases bytes with
  | nil => simp [scan_loop, while_loop, for_loop]
  | cons b rest => simp [scan_loop, while_loop]

theorem ascii_run_of_split {pre t : List Nat} (hne : t ≠ [])
    (hp : ∀ b ∈ t, is_printable b = true)
    (hl : ∀ x, pre.getLast? = some x → is_printable x = false) :
    IsAsciiRun (pre ++ t) pre.length t := by
  refine ⟨hne, ?_, hp, ?_, ?_⟩
  · intro j _
    rw [List.getElem?_append_right (by omega), Nat.add_sub_cancel_left]
  · intro j hj
    have hlt : j < pre.length := by omega
    have hget : pre[j]? = some pre[j] := List.getElem?_eq_getElem hlt
    have hlast : pre.getLast? = some pre[j] := by
      rw [List.getLast?_eq_getElem?, show pre.length - 1 = j by omega]
      exact hget
    have hj2 : (pre ++ t)[j]? = some pre[j] := by
      rw [List.getElem?_append_left hlt]
      exact hget
    rw [printable_at_of_get hj2]
    exact hl _ hlast
  · exact printable_at_of_ge (by simp)

/-- C6 (chunk independence).  For every stream and every way of delivering it as
a sequence of non-empty chunks, `process_file` prints the same matches (texts,
offsets and order, both tracks together) as when the whole stream is delivered
as one chunk, and the offset handed to the loop body with the byte of stream
index `j` is `j`.  A run that spans a chunk boundary is therefore reported as the
single match of the one-chunk scan. -/
theorem chunk_independence (fresh : Nat → Nat) (cfg : Config) (reads : List (List Nat))
    (hc : ∀ r ∈ reads, r ≠ []) :
    process_file fresh cfg (some reads) = process_file fresh cfg (some [reads.flatten]) ∧
      fed_bytes reads = reads.flatten.enum := by
  constructor
  · unfold process_file
    simp only
    rw [scan_loop_eq fresh cfg reads hc, scan_loop_single]
  · unfold fed_bytes
    rw [while_loop_eq_for_loop _ reads 0 _ hc, for_loop_record]
    simp [List.enum]

/-- Witness for C6: the stream `ABC 00 D` delivered as `AB`, `C 00`, `D`. -/
theorem chunk_independence_witness :
    (∀ r ∈ [[0x41, 0x42], [0x43, 0x00], [0x44]], r ≠ ([] : List Nat)) ∧
      process_file (fun _ => 0xAA) (Config.mk 3 0 false)
          (some [[0x41, 0x42], [0x43, 0x00], [0x44]]) =
        process_file (fun _ => 0xAA) (Config.mk 3 0 false)
          (some [[[0x41, 0x42], [0x43, 0x00], [0x44]].flatten]) ∧
      fed_bytes [[0x41, 0x42], [0x43, 0x00], [0x44]] =
        ([[0x41, 0x42], [0x43, 0x00], [0x44]] : List (List Nat)).flatten.enum :=
  ⟨by decide,
    chunk_independence (fun _ => 0xAA) (Config.mk 3 0 false)
      [[0x41, 0x42], [0x43, 0x00], [0x44]] (by decide)⟩

/-- C7.  For every stream and every `min_len ≥ 1`, within each track the start
offsets of the matches are non-decreasing in output order: of any two matches of
the same track, the later one starts at an offset at least that of the earlier
one. -/
theorem offsets_monotone (fresh : Nat → Nat) (cfg : Config) (reads : List (List Nat))
    (hm : 1 ≤ cfg.min_len) (hc : ∀ r ∈ reads, r ≠ []) :
    (matches_of Track.ascii (process_file fresh cfg (some reads))).Pairwise
        (fun x y => x.1 ≤ y.1) ∧
      (matches_of Track.utf16 (process_file fresh cfg (some reads))).Pairwise
        (fun x y => x.1 ≤ y.1) := by
  have hm1 := (to_size_t_of_pos hm).2
  rw [process_file_ascii fresh cfg reads hc, process_file_utf16 fresh cfg reads hc]
  exact ⟨(ascii_flush_pairwise hm1 (ascii_inv_run hm1 reads.flatten)).imp Nat.le_of_lt,
    (pair_flush_pairwise hm1 (pair_inv_run hm1 reads.flatten)).imp Nat.le_of_lt⟩

/-- Witness for C7 on the stream `A 00 B 00 01 C 00 D E 00 F` with `min_len = 1`. -/
theorem offsets_monotone_witness :
    (1 : Int) ≤ (Config.mk 1 0 false).min_len ∧
      (∀ r ∈ [[0x41, 0x00, 0x42, 0x00, 0x01, 0x43, 0x00, 0x44, 0x45, 0x00, 0x46]],
        r ≠ ([] : List Nat)) ∧
      (matches_of Track.ascii (process_file (fun _ => 0xAA) (Config.mk 1 0 false)
        (some [[0x41, 0x00, 0x42, 0x00, 0x01, 0x43, 0x00, 0x44, 0x45, 0x00, 0x46]]))).Pairwise
          (fun x y => x.1 ≤ y.1) ∧
      (matches_of Track.utf16 (process_file (fun _ => 0xAA) (Config.mk 1 0 false)
        (some [[0x41, 0x00, 0x42, 0x00, 0x01, 0x43, 0x00, 0x44, 0x45, 0x00, 0x46]]))).Pairwise
          (fun x y => x.1 ≤ y.1) :=
  ⟨by decide, by decide,
    offsets_monotone (fun _ => 0xAA) (Config.mk 1 0 false)
      [[0x41, 0x00, 0x42, 0x00, 0x01, 0x43, 0x00, 0x44, 0x45, 0x00, 0x46]]
      (by decide) (by decide)⟩

/-- C8 (end-of-file flush, single-byte track).  When the stream ends with a
printable byte, write it as `pre ++ t` where `t` is the maximal printable run
that ends at the last byte (`t` is not empty, all its bytes are printable, and
`pre` does not end with a printable byte).  Then the match with text `t` at the
offset of its first byte is printed exactly once if `t` has at least `min_len`
bytes, and is not printed otherwise. -/
theorem eof_flush_single_byte (fresh : Nat → Nat) (cfg : Config) (reads : List (List Nat))
    (hm : 1 ≤ cfg.min_len) (hc : ∀ r ∈ reads, r ≠ []) (pre t : List Nat)
    (hsplit : reads.flatten = pre ++ t) (hne : t ≠ [])
    (hp : ∀ b ∈ t, is_printable b = true)
    (hl : ∀ x, pre.getLast? = some x → is_printable x = false) :
    (process_file fresh cfg (some reads)).count (Match.mk Track.ascii pre.length t) =
      if cfg.min_len ≤ (t.length : Int) then 1 else 0 := by
  have hm1 := (to_size_t_of_pos hm).2
  have hinv := ascii_inv_run hm1 reads.flatten
  have hrun : IsAsciiRun reads.flatten pre.length t := by
    rw [hsplit]
    exact ascii_run_of_split hne hp hl
  have hiff := ascii_flush_mem hm1 hinv pre.length t
  rw [← process_file_ascii fresh cfg reads hc, mem_matches_of, min_len_le_iff hm] at hiff
  by_cases hlen : cfg.min_len ≤ (t.length : Int)
  · rw [if_pos hlen]
    apply count_match_of_pairwise _ (hiff.2 ⟨hlen, hrun⟩)
    rw [process_file_ascii fresh cfg reads hc]
    exact ascii_flush_pairwise hm1 hinv
  · rw [if_neg hlen]
    apply List.count_eq_zero_of_not_mem
    intro hmem
    exact hlen (hiff.1 hmem).1

/-- Witness for C8: the stream `00 A B` with `min_len = 2`; the run `AB` at
offset 1 is printed once. -/
theorem eof_flush_single_byte_witness :
    (1 : Int) ≤ (Config.mk 2 0 false).min_len ∧
      (∀ r ∈ [[0x00, 0x41, 0x42]], r ≠ ([] : List Nat)) ∧
      ([[0x00, 0x41, 0x42]] : List (List Nat)).flatten = [0x00] ++ [0x41, 0x42] ∧
      (process_file (fun _ => 0xAA) (Config.mk 2 0 false) (some [[0x00, 0x41, 0x42]])).count
          (Match.mk Track.ascii ([0x00] : List Nat).length [0x41, 0x42]) =
        if (Config.mk 2 0 false).min_len ≤ (([0x41, 0x42] : List Nat).length : Int) then 1
        else 0 :=
  ⟨by decide, by decide, by decide,
    eof_flush_single_byte (fun _ => 0xAA) (Config.mk 2 0 false) [[0x00, 0x41, 0x42]]
      (by decide) (by decide) [0x00] [0x41, 0x42] (by decide) (by decide) (by decide)
      (fun x hx => by
        simp at hx
        subst hx
        rfl)⟩

theorem mem_cleanup_utf16 (cfg : Config) (s : ScanState)
    (h : s.utf16_buf.len ≥ to_size_t cfg.min_len) :
    print_match Track.utf16 s.utf16_buf ∈ end_of_file_cleanup cfg s := by
  unfold end_of_file_cleanup
  simp only [h, if_true]
  exact List.mem_append_right _ (List.mem_singleton_self _)

/-- C9 (end-of-file pending drop, two-byte track).  When the last byte `x` of the
stream is printable: every two-byte match ends before that byte
(`start + 2 * length ≤ n - 1`); the read loop ends in state 1 with `x` pending at
offset `n - 1`; the candidate held at that point is still printed by the final
flush when it has at least `min_len` characters, with exactly those characters;
and, on the stream, the maximal pair run that ends right before the last byte is
among the matches when it has at least `min_len` pairs. -/
theorem eof_pending_drop_two_byte (fresh : Nat → Nat) (cfg : Config)
    (reads : List (List Nat)) (hm : 1 ≤ cfg.min_len) (hc : ∀ r ∈ reads, r ≠ []) (x : Nat)
    (hx : reads.flatten.getLast? = some x) (hpx : is_printable x = true) :
    (∀ y ∈ process_file fresh cfg (some reads), y.track = Track.utf16 →
        y.start_offset + 2 * y.text.length ≤ reads.flatten.length - 1) ∧
      ((scan_loop fresh cfg reads).utf16_state = 1 ∧
        (scan_loop fresh cfg reads).utf16_pending_char = x ∧
        (scan_loop fresh cfg reads).utf16_pending_start = reads.flatten.length - 1) ∧
      (cfg.min_len ≤ ((scan_loop fresh cfg reads).utf16_buf.len : Int) →
        print_match Track.utf16 (scan_loop fresh cfg reads).utf16_buf ∈
            process_file fresh cfg (some reads) ∧
          (print_match Track.utf16 (scan_loop fresh cfg reads).utf16_buf).text.length =
            (scan_loop fresh cfg reads).utf16_buf.len) ∧
      (∀ s t, IsPairRun reads.flatten s t → s + 2 * t.length = reads.flatten.length - 1 →
        cfg.min_len ≤ (t.length : Int) →
        Match.mk Track.utf16 s t ∈ process_file fresh cfg (some reads)) := by
  have hm1 := (to_size_t_of_pos hm).2
  have hinv := pair_inv_run hm1 reads.flatten
  have hsim := scan_loop_pair_sim fresh cfg reads hc
  obtain ⟨hs1, hs2, hs3, hs4⟩ := pair_inv_last_printable hinv hx hpx
  obtain ⟨hb, -, -, hst, hpc, hps, -, -⟩ := hsim
  refine ⟨?_, ⟨?_, ?_, ?_⟩, ?_, ?_⟩
  · intro y hy ht
    have hmem : (y.start_offset, y.text) ∈
        matches_of Track.utf16 (process_file fresh cfg (some reads)) := by
      rw [mem_matches_of, ← ht]
      exact hy
    rw [process_file_utf16 fresh cfg reads hc, pair_flush_mem hm1 hinv] at hmem
    have := hs4 _ _ hmem.2
    omega
  · rw [hst]; exact hs1
  · rw [hpc]; exact hs2
  · rw [hps]; omega
  · intro hlen
    constructor
    · exact mem_cleanup_utf16 cfg _ ((min_len_le_iff hm _).2 hlen)
    · rw [print_match_of_holds Track.utf16 hb]
      exact hb.2.2.1.symm
  · intro s t hr _ hlen
    rw [← mem_matches_of, process_file_utf16 fresh cfg reads hc, pair_flush_mem hm1 hinv,
      min_len_le_iff hm]
    exact ⟨hlen, hr⟩

/-- Witness for C9: the stream `A 00 B 00 C` with `min_len = 2`; the last byte
`C` is pending at offset 4 and the candidate `AB` is still printed. -/
theorem eof_pending_drop_two_byte_witness :
    (1 : Int) ≤ (Config.mk 2 0 false).min_len ∧
      (∀ r ∈ [[0x41, 0x00, 0x42, 0x00, 0x43]], r ≠ ([] : List Nat)) ∧
      ([[0x41, 0x00, 0x42, 0x00, 0x43]] : List (List Nat)).flatten.getLast? = some 0x43 ∧
      is_printable 0x43 = true ∧
      ((scan_loop (fun _ => 0xAA) (Config.mk 2 0 false)
          [[0x41, 0x00, 0x42, 0x00, 0x43]]).utf16_state = 1 ∧
        (scan_loop (fun _ => 0xAA) (Config.mk 2 0 false)
          [[0x41, 0x00, 0x42, 0x00, 0x43]]).utf16_pending_char = 0x43 ∧
        (scan_loop (fun _ => 0xAA) (Config.mk 2 0 false)
          [[0x41, 0x00, 0x42, 0x00, 0x43]]).utf16_pending_start =
          ([[0x41, 0x00, 0x42, 0x00, 0x43]] : List (List Nat)).flatten.length - 1) :=
  ⟨by decide, by decide, by decide, by decide,
    (eof_pending_drop_two_byte (fun _ => 0xAA) (Config.mk 2 0 false)
      [[0x41, 0x00, 0x42, 0x00, 0x43]] (by decide) (by decide) 0x43 (by decide)
      (by decide)).2.1⟩

/-- C10 (regression scenario).  For the stream `41 42 00 43 44` (the text
`AB\0CD`) with `min_len = 1`, the two-byte track prints exactly one match: the
single character `B`, at offset 1.  So `AB` is not taken as a pair, and neither
`C` nor `D` is printed by that track. -/
theorem regression_AB_null_CD (fresh : Nat → Nat) (offset_format : Nat)
    (print_filename : Bool) :
    matches_of Track.utf16 (process_file fresh (Config.mk 1 offset_format print_filename)
        (some [[0x41, 0x42, 0x00, 0x43, 0x44]])) = [(1, [0x42])] := by
  have h := process_file_utf16 fresh (Config.mk 1 offset_format print_filename)
    [[0x41, 0x42, 0x00, 0x43, 0x44]] (by decide)
  have hr : pair_track_flush (to_size_t 1)
      (pair_track_run (to_size_t 1) [0x41, 0x42, 0x00, 0x43, 0x44]) = [(1, [0x42])] := by
    decide
  exact h.trans hr

/-- C11 (regression scenario).  For the stream `68 69 00 74 68 65 72 65` (the
text `hi\0there`) with `min_len = 1`, the single-byte track prints exactly `hi`
at offset 0 and then `there` at offset 3, and the two-byte track prints exactly
one match, `i` at offset 1: nothing comes from `there`, which is followed by no
null byte. -/
theorem regression_hi_null_there (fresh : Nat → Nat) (offset_format : Nat)
    (print_filename : Bool) :
    matches_of Track.ascii (process_file fresh (Config.mk 1 offset_format print_filename)
        (some [[0x68, 0x69, 0x00, 0x74, 0x68, 0x65, 0x72, 0x65]])) =
        [(0, [0x68, 0x69]), (3, [0x74, 0x68, 0x65, 0x72, 0x65])] ∧
      matches_of Track.utf16 (process_file fresh (Config.mk 1 offset_format print_filename)
        (some [[0x68, 0x69, 0x00, 0x74, 0x68, 0x65, 0x72, 0x65]])) = [(1, [0x69])] := by
  have ha := process_file_ascii fresh (Config.mk 1 offset_format print_filename)
    [[0x68, 0x69, 0x00, 0x74, 0x68, 0x65, 0x72, 0x65]] (by decide)
  have hu := process_file_utf16 fresh (Config.mk 1 offset_format print_filename)
    [[0x68, 0x69, 0x00, 0x74, 0x68, 0x65, 0x72, 0x65]] (by decide)
  have hra : ascii_track_flush (to_size_t 1)
      (ascii_track_run (to_size_t 1) [0x68, 0x69, 0x00, 0x74, 0x68, 0x65, 0x72, 0x65]) =
      [(0, [0x68, 0x69]), (3, [0x74, 0x68, 0x65, 0x72, 0x65])] := by
    decide
  have hru : pair_track_flush (to_size_t 1)
      (pair_track_run (to_size_t 1) [0x68, 0x69, 0x00, 0x74, 0x68, 0x65, 0x72, 0x65]) =
      [(1, [0x69])] := by
    decide
  exact ⟨ha.trans hra, hu.trans hru⟩

/-! ## The argument loop of `main` -/

theorem main_arg_loop_file {arg : String} (rest : List String) (cfg : Config)
    (files : List String) (h : first_char arg ≠ 45) :
    main_arg_loop (arg :: rest) cfg files = main_arg_loop rest cfg (files ++ [arg]) := by
  rw [main_arg_loop.eq_def]
  dsimp only
  rw [if_neg h]

theorem main_arg_loop_n (value : String) (rest : List String) (cfg : Config)
    (files : List String) :
    main_arg_loop ("-n" :: value :: rest) cfg files =
      main_arg_loop rest { cfg with min_len := if atoi value < 1 then 1 else atoi value }
        files := by
  rw [main_arg_loop, if_pos (by decide), if_pos rfl]

theorem main_arg_loop_n_last (cfg : Config) (files : List String) :
    main_arg_loop ["-n"] cfg files = Except.error 1 := by
  rw [main_arg_loop, if_pos (by decide), if_pos rfl]

/-- The configuration after the argument loop: `min_len` is the initial one, or
it is at least 1 and `-n` is among the arguments. -/
theorem main_arg_loop_min_len :
    ∀ (n : Nat) (args : List String) (cfg : Config) (files : List String) (cfg2 : Config)
      (files2 : List String), args.length ≤ n →
      main_arg_loop args cfg files = Except.ok (cfg2, files2) →
      cfg2.min_len = cfg.min_len ∨ (1 ≤ cfg2.min_len ∧ "-n" ∈ args) := by
  intro n
  induction n with
  | zero =>
    intro args cfg files cfg2 files2 hlen h
    have : args = [] := List.eq_nil_of_length_eq_zero (by omega)
    subst this
    rw [main_arg_loop] at h
    cases h
    exact Or.inl rfl
  | succ n ih =>
    intro args cfg files cfg2 files2 hlen h
    cases args with
    | nil =>
      rw [main_arg_loop] at h
      cases h
      exact Or.inl rfl
    | cons arg rest =>
      simp only [List.length_cons] at hlen
      rw [main_arg_loop.eq_def] at h
      dsimp only at h
      by_cases h45 : first_char arg = 45
      · rw [if_pos h45] at h
        by_cases hn : arg = "-n"
        · rw [if_pos hn] at h
          cases rest with
          | nil => cases h
          | cons value rest2 =>
            simp only [List.length_cons] at hlen
            simp only at h
            have := ih rest2 _ files cfg2 files2 (by omega) h
            right
            refine ⟨?_, by rw [hn]; exact List.mem_cons_self _ _⟩
            rcases this with he | ⟨h1, -⟩
            · rw [he]
              show 1 ≤ (if atoi value < 1 then 1 else atoi value)
              split_ifs <;> omega
            · exact h1
        · rw [if_neg hn] at h
          by_cases ht : arg = "-t"
          · rw [if_pos ht] at h
            cases rest with
            | nil => cases h
            | cons value rest2 =>
              simp only [List.length_cons] at hlen
              simp only at h
              split_ifs at h
              rcases ih rest2 _ files cfg2 files2 (by omega) h with he | ⟨h1, h2⟩
              · exact Or.inl he
              · exact Or.inr ⟨h1, List.mem_cons_of_mem _ (List.mem_cons_of_mem _ h2)⟩
          · rw [if_neg ht] at h
            by_cases hf : arg = "-f"
            · rw [if_pos hf] at h
              rcases ih rest _ files cfg2 files2 (by omega) h with he | ⟨h1, h2⟩
              · exact Or.inl he
              · exact Or.inr ⟨h1, List.mem_cons_of_mem _ h2⟩
            · rw [if_neg hf] at h
              split_ifs at h
      · rw [if_neg h45] at h
        rcases ih rest cfg _ cfg2 files2 (by omega) h with he | ⟨h1, h2⟩
        · exact Or.inl he
        · exact Or.inr ⟨h1, List.mem_cons_of_mem _ h2⟩

theorem main_scanned_cfg {argv : List String} {f : String} {c : Config}
    (h : (f, c) ∈ (main argv).scanned) :
    ∃ files, main_arg_loop argv.tail
      { min_len := 4, offset_format := 0, print_filename := false } [] = Except.ok (c, files) := by
  unfold main at h
  cases hloop : main_arg_loop argv.tail
      { min_len := 4, offset_format := 0, print_filename := false } [] with
  | error code =>
    rw [hloop] at h
    simp at h
  | ok r =>
    obtain ⟨cfg, files⟩ := r
    rw [hloop] at h
    simp only at h
    split_ifs at h
    · simp at h
    · simp only [List.mem_map, Prod.mk.injEq] at h
      obtain ⟨_, _, _, hc⟩ := h
      exact ⟨files, by rw [hc]⟩

/-- C12.  Whenever `main` calls `process_file`, the configuration it passes has
`min_len ≥ 1`; it is 4 when `-n` is not among the arguments; and an argument of
`-n` that `atoi` reads as 0 or as a negative number sets `min_len` to exactly 1
(the loop goes on from the configuration with `min_len = 1`). -/
theorem min_len_at_least_one (argv : List String) (f : String) (c : Config)
    (h : (f, c) ∈ (main argv).scanned) :
    1 ≤ c.min_len ∧ ("-n" ∉ argv.tail → c.min_len = 4) ∧
      (∀ (value : String) (rest : List String) (cfg : Config) (files : List String),
        atoi value < 1 →
        main_arg_loop ("-n" :: value :: rest) cfg files =
          main_arg_loop rest { cfg with min_len := 1 } files) := by
  obtain ⟨files, hloop⟩ := main_scanned_cfg h
  have hinv := main_arg_loop_min_len argv.tail.length argv.tail _ [] c files (Nat.le_refl _) hloop
  refine ⟨?_, ?_, ?_⟩
  · rcases hinv with he | ⟨h1, -⟩
    · rw [he]; decide
    · exact h1
  · intro hn
    rcases hinv with he | ⟨-, h2⟩
    · exact he
    · exact absurd h2 hn
  · intro value rest cfg files hv
    rw [main_arg_loop_n, if_pos hv]

/-- Witness for C12: `strix -n 0 f.bin` scans `f.bin` with `min_len = 1`. -/
theorem min_len_at_least_one_witness :
    (("f.bin", Config.mk 1 0 false) ∈ (main ["strix", "-n", "0", "f.bin"]).scanned) ∧
      (1 : Int) ≤ (Config.mk 1 0 false).min_len :=
  ⟨by decide,
    (min_len_at_least_one ["strix", "-n", "0", "f.bin"] "f.bin" (Config.mk 1 0 false)
      (by decide)).1⟩

theorem atoi_digits_of_head {cs : List Char} (h : (cs.head?.map isdigit).getD false = false) :
    atoi_digits cs 0 = 0 := by
  cases cs with
  | nil => rfl
  | cons ch cs =>
    simp only [List.head?_cons, Option.map_some', Option.getD_some] at h
    rw [atoi_digits, h]
    rfl

theorem atoi_value_of_not_number {s : String} (h : starts_number s = false) :
    atoi_value s = 0 := by
  unfold starts_number at h
  unfold atoi_value
  split at h
  · rw [atoi_digits_of_head h]; rfl
  · rw [atoi_digits_of_head h]; rfl
  · rw [atoi_digits_of_head h]; rfl

theorem atoi_of_not_number {s : String} (h : starts_number s = false) : atoi s = 0 := by
  unfold atoi
  rw [atoi_value_of_not_number h]
  decide

/-- The result of `atoi` is a 32-bit `int`. -/
theorem atoi_range (s : String) : -(2 ^ 31) ≤ atoi s ∧ atoi s ≤ 2 ^ 31 - 1 := by
  unfold atoi long_to_int
  omega

/-- Where the number written does not fit an `int`, `atoi` gives what the
conversion leaves of it: `2147483648` is read as `-2147483648` (so `-n` clamps it
to 1) and `-4294967293` as 3 (so `-n` scans with `min_len = 3`). -/
theorem atoi_out_of_range :
    atoi "2147483648" = -2147483648 ∧ atoi "-4294967293" = 3 ∧
      atoi "99999999999999999999" = -1 ∧
      main ["strix", "-n", "2147483648", "f.bin"] =
        { exit_code := 0, scanned := [("f.bin", Config.mk 1 0 false)] } ∧
      main ["strix", "-n", "-4294967293", "f.bin"] =
        { exit_code := 0, scanned := [("f.bin", Config.mk 3 0 false)] } := by
  decide

/-- Arguments that do not begin with `-` are collected as files, in order. -/
theorem main_arg_loop_files :
    ∀ (pre tail : List String) (cfg : Config) (files : List String),
      (∀ a ∈ pre, first_char a ≠ 45) →
      main_arg_loop (pre ++ tail) cfg files = main_arg_loop tail cfg (files ++ pre)
  | [], tail, cfg, files, _ => by simp
  | a :: pre, tail, cfg, files, h => by
    rw [List.cons_append, main_arg_loop_file _ cfg files (h a (List.mem_cons_self _ _)),
      main_arg_loop_files pre tail cfg _ (fun x hx => h x (List.mem_cons_of_mem _ hx))]
    simp

/-- C13, counterexample.  For `strix -n abc file.bin` the code does not exit with
code 1: `atoi` reads `abc` as 0, `min_len` is clamped to 1, and `file.bin` is
scanned with exit code 0. -/
theorem non_numeric_n_counterexample :
    (main ["strix", "-n", "abc", "file.bin"]).exit_code = 0 ∧
      (main ["strix", "-n", "abc", "file.bin"]).scanned =
        [("file.bin", Config.mk 1 0 false)] ∧
      ¬ ((main ["strix", "-n", "abc", "file.bin"]).exit_code = 1 ∧
        (main ["strix", "-n", "abc", "file.bin"]).scanned = []) := by
  decide

/-- C13, amended.  For every argument vector in which `-n` is followed by an
argument that does not begin with a number (such as `abc`), `main` does not
treat that argument as a configuration error: `atoi` reads it as 0, `min_len` is
clamped to 1, and `main` proceeds exactly as if the argument were `1`.  In
particular, when the other arguments are file names, at least one, `main` exits
with code 0 and scans every file with `min_len = 1`. -/
theorem non_numeric_n_clamped (prog value : String) (pre post : List String)
    (hv : starts_number value = false) (hpre : ∀ a ∈ pre, first_char a ≠ 45)
    (hpost : ∀ a ∈ post, first_char a ≠ 45) (hne : pre ++ post ≠ []) :
    atoi value = 0 ∧
      main (prog :: (pre ++ "-n" :: value :: post)) =
        { exit_code := 0
          scanned := (pre ++ post).map (fun f => (f, Config.mk 1 0 false)) } ∧
      (∀ rest : List String,
        main (prog :: "-n" :: value :: rest) = main (prog :: "-n" :: "1" :: rest)) ∧
      (∀ (rest : List String) (cfg : Config) (files : List String),
        main_arg_loop ("-n" :: value :: rest) cfg files =
          main_arg_loop rest { cfg with min_len := 1 } files) := by
  have h0 := atoi_of_not_number hv
  have hstep : ∀ (rest : List String) (cfg : Config) (files : List String),
      main_arg_loop ("-n" :: value :: rest) cfg files =
        main_arg_loop rest { cfg with min_len := 1 } files := by
    intro rest cfg files
    rw [main_arg_loop_n, h0]
    rfl
  have hone : ∀ (rest : List String) (cfg : Config) (files : List String),
      main_arg_loop ("-n" :: "1" :: rest) cfg files =
        main_arg_loop rest { cfg with min_len := 1 } files := by
    intro rest cfg files
    rw [main_arg_loop_n]
    rfl
  refine ⟨h0, ?_, ?_, hstep⟩
  · have hloop : main_arg_loop (pre ++ "-n" :: value :: post)
        { min_len := 4, offset_format := 0, print_filename := false } [] =
        Except.ok (Config.mk 1 0 false, pre ++ post) := by
      rw [main_arg_loop_files pre _ _ _ hpre, hstep]
      have hp := main_arg_loop_files post [] (Config.mk 1 0 false) ([] ++ pre) hpost
      rw [List.append_nil] at hp
      show main_arg_loop post (Config.mk 1 0 false) ([] ++ pre) = _
      rw [hp, main_arg_loop]
      simp
    have hlen : ¬ (pre ++ post).length = 0 := fun hz => hne (List.eq_nil_of_length_eq_zero hz)
    unfold main
    rw [List.tail_cons, hloop]
    simp only
    rw [if_neg hlen]
  · intro rest
    unfold main
    rw [List.tail_cons, List.tail_cons, hstep, hone]

/-- Witness for the amended C13: `strix a.bin -n abc b.bin` exits with code 0 and
scans both files with `min_len = 1`. -/
theorem non_numeric_n_clamped_witness :
    starts_number "abc" = false ∧ (∀ a ∈ ["a.bin"], first_char a ≠ 45) ∧
      (∀ a ∈ ["b.bin"], first_char a ≠ 45) ∧ ["a.bin"] ++ ["b.bin"] ≠ ([] : List String) ∧
      main ("strix" :: (["a.bin"] ++ "-n" :: "abc" :: ["b.bin"])) =
        { exit_code := 0
          scanned := (["a.bin"] ++ ["b.bin"]).map (fun f => (f, Config.mk 1 0 false)) } :=
  ⟨by decide, by decide, by decide, by decide,
    (non_numeric_n_clamped "strix" "abc" ["a.bin"] ["b.bin"] (by decide) (by decide)
      (by decide) (by decide)).2.1⟩

theorem reset_buf_idem (b : StrBuf) : reset_buf (reset_buf b) = reset_buf b := by
  unfold reset_buf
  simp

theorem utf16_logic_out (fresh : Nat → Nat) (cfg : Config) (s : ScanState) (b pos : Nat) :
    ∃ l, (utf16_logic fresh cfg s b pos).out = s.out ++ l ∧ l.length ≤ 1 ∧
      ∀ x ∈ l, x = print_match Track.utf16 s.utf16_buf := by
  have hflush : ∃ l, (if s.utf16_buf.len ≥ to_size_t cfg.min_len then
      s.out ++ [print_match Track.utf16 s.utf16_buf] else s.out) = s.out ++ l ∧ l.length ≤ 1 ∧
      ∀ x ∈ l, x = print_match Track.utf16 s.utf16_buf := by
    by_cases hm : s.utf16_buf.len ≥ to_size_t cfg.min_len
    · exact ⟨[print_match Track.utf16 s.utf16_buf], by rw [if_pos hm], by simp, by simp⟩
    · exact ⟨[], by rw [if_neg hm]; simp, by simp, by simp⟩
  have hnone : ∃ l, s.out = s.out ++ l ∧ l.length ≤ 1 ∧
      ∀ x ∈ l, x = print_match Track.utf16 s.utf16_buf := ⟨[], by simp, by simp, by simp⟩
  by_cases h0 : s.utf16_state = 0
  · cases hpr : is_printable b
    · rw [utf16_logic_break fresh cfg s pos h0 hpr]
      exact hflush
    · rw [utf16_logic_pend fresh cfg s pos h0 hpr]
      exact hnone
  · by_cases hz : b = 0
    · rw [utf16_logic_confirm fresh cfg s pos h0 hz]
      exact hnone
    · cases hpr : is_printable b
      · rw [utf16_logic_fail_break fresh cfg s pos h0 hz hpr]
        exact hflush
      · rw [utf16_logic_fail_pend fresh cfg s pos h0 hz hpr]
        exact hflush

/-- C14 (re-evaluation is a single extra dispatch).  For `min_len ≥ 1`, a state
in `ExpectNull` and a byte `b ≠ 0x00`, the pairing-failure branch of the code
gives the same state and the same output as flushing and resetting the
candidate and then applying the `ExpectChar` transition to the same byte at the
same offset, be it the transition in the words of the specification or the
`utf16_state == 0` branch of the code itself.  Moreover, for every state and
byte, the two-byte logic appends at most one match to the output. -/
theorem reevaluation_single_dispatch (fresh : Nat → Nat) (cfg : Config) (s : ScanState)
    (b pos : Nat) (hm : 1 ≤ cfg.min_len) (hs : s.utf16_state ≠ 0) (hb : b ≠ 0x00) :
    utf16_logic fresh cfg s b pos = spec_expect_char cfg (spec_flush_and_reset cfg s) b pos ∧
      utf16_logic fresh cfg s b pos = utf16_logic fresh cfg (spec_flush_and_reset cfg s) b pos ∧
      ∀ (s2 : ScanState) (b2 pos2 : Nat),
        ∃ l, (utf16_logic fresh cfg s2 b2 pos2).out = s2.out ++ l ∧ l.length ≤ 1 := by
  have hm1 := (to_size_t_of_pos hm).2
  have hno : ¬ (reset_buf s.utf16_buf).len ≥ to_size_t cfg.min_len := by
    show ¬ (0 ≥ to_size_t cfg.min_len)
    omega
  have hspec : utf16_logic fresh cfg s b pos =
      spec_expect_char cfg (spec_flush_and_reset cfg s) b pos := by
    unfold spec_expect_char
    cases hpr : is_printable b
    · rw [utf16_logic_fail_break fresh cfg s pos hs hb hpr]
      simp only [Bool.false_eq_true, if_false]
      unfold spec_flush_and_reset
      simp only [hno, if_false, reset_buf_idem]
    · rw [utf16_logic_fail_pend fresh cfg s pos hs hb hpr]
      simp only [if_true]
      rfl
  refine ⟨hspec, ?_, fun s2 b2 pos2 => ?_⟩
  · rw [hspec]
    unfold spec_expect_char
    cases hpr : is_printable b
    · rw [utf16_logic_break fresh cfg _ pos rfl hpr]
      simp only [Bool.false_eq_true, if_false]
    · rw [utf16_logic_pend fresh cfg _ pos rfl hpr]
      simp only [if_true]
  · obtain ⟨l, h1, h2, -⟩ := utf16_logic_out fresh cfg s2 b2 pos2
    exact ⟨l, h1, h2⟩

/-- Witness for C14: state 1 with `A` pending and candidate `B`, byte `C`. -/
theorem reevaluation_single_dispatch_witness :
    (1 : Int) ≤ (Config.mk 1 0 false).min_len ∧
      (ScanState.mk (init_buf (fun _ => 0xAA))
        (append_buf (fun _ => 0xAA) (init_buf (fun _ => 0xAA)) 0x42) 1 0x41 7 []).utf16_state ≠ 0 ∧
      (0x43 : Nat) ≠ 0x00 ∧
      utf16_logic (fun _ => 0xAA) (Config.mk 1 0 false)
          (ScanState.mk (init_buf (fun _ => 0xAA))
            (append_buf (fun _ => 0xAA) (init_buf (fun _ => 0xAA)) 0x42) 1 0x41 7 []) 0x43 8 =
        spec_expect_char (Config.mk 1 0 false)
          (spec_flush_and_reset (Config.mk 1 0 false)
            (ScanState.mk (init_buf (fun _ => 0xAA))
              (append_buf (fun _ => 0xAA) (init_buf (fun _ => 0xAA)) 0x42) 1 0x41 7 [])) 0x43 8 :=
  ⟨by decide, by decide, by decide,
    (reevaluation_single_dispatch (fun _ => 0xAA) (Config.mk 1 0 false)
      (ScanState.mk (init_buf (fun _ => 0xAA))
        (append_buf (fun _ => 0xAA) (init_buf (fun _ => 0xAA)) 0x42) 1 0x41 7 []) 0x43 8
      (by decide) (by decide) (by decide)).1⟩

/-- C17 (postcondition of `append_buf`).  For a buffer with `len < cap` (whose
storage has `cap` cells) and any character `ch`: the length becomes `len + 1`,
the first `len` characters are unchanged, the character at index `len` is `ch`,
the terminator follows it, `start_offset` is unchanged, and the capacity is
doubled exactly when `len + 1 ≥ cap` held before the call and is unchanged
otherwise (the storage following the capacity). -/
theorem append_buf_postcondition (fresh : Nat → Nat) (b : StrBuf) (ch : Nat)
    (hlen : b.len < b.cap) (hdata : b.data.length = b.cap) :
    (append_buf fresh b ch).len = b.len + 1 ∧
      (∀ j, j < b.len → (append_buf fresh b ch).data[j]? = b.data[j]?) ∧
      (append_buf fresh b ch).data[b.len]? = some ch ∧
      (append_buf fresh b ch).data[b.len + 1]? = some 0 ∧
      (append_buf fresh b ch).start_offset = b.start_offset ∧
      (append_buf fresh b ch).cap = (if b.len + 1 ≥ b.cap then b.cap * 2 else b.cap) ∧
      (append_buf fresh b ch).data.length = (append_buf fresh b ch).cap := by
  by_cases hfull : b.len + 1 ≥ b.cap
  · rw [append_buf_of_full fresh b ch hfull, if_pos hfull]
    have hl2 : (b.data ++ (List.range' b.cap (b.cap * 2 - b.cap)).map fresh).length =
        b.cap * 2 := by
      simp only [List.length_append, List.length_map, List.length_range', hdata]
      omega
    refine ⟨rfl, ?_, ?_, ?_, rfl, rfl, ?_⟩
    · intro j hj
      show (((b.data ++ _).set b.len ch).set (b.len + 1) 0)[j]? = _
      rw [List.getElem?_set_ne (by omega), List.getElem?_set_ne (by omega),
        List.getElem?_append_left (by omega)]
    · show (((b.data ++ _).set b.len ch).set (b.len + 1) 0)[b.len]? = _
      rw [List.getElem?_set_ne (by omega), List.getElem?_set_self (by omega)]
    · show (((b.data ++ _).set b.len ch).set (b.len + 1) 0)[b.len + 1]? = _
      rw [List.getElem?_set_self (by rw [List.length_set]; omega)]
    · show (((b.data ++ _).set b.len ch).set (b.len + 1) 0).length = b.cap * 2
      rw [List.length_set, List.length_set, hl2]
  · rw [append_buf_of_room fresh b ch hfull, if_neg hfull]
    refine ⟨rfl, ?_, ?_, ?_, rfl, rfl, ?_⟩
    · intro j hj
      show ((b.data.set b.len ch).set (b.len + 1) 0)[j]? = _
      rw [List.getElem?_set_ne (by omega), List.getElem?_set_ne (by omega)]
    · show ((b.data.set b.len ch).set (b.len + 1) 0)[b.len]? = _
      rw [List.getElem?_set_ne (by omega), List.getElem?_set_self (by omega)]
    · show ((b.data.set b.len ch).set (b.len + 1) 0)[b.len + 1]? = _
      rw [List.getElem?_set_self (by rw [List.length_set]; omega)]
    · show ((b.data.set b.len ch).set (b.len + 1) 0).length = b.cap
      rw [List.length_set, List.length_set, hdata]

/-- Witness for C17: appending `B` to a four-cell buffer that holds `A`. -/
theorem append_buf_postcondition_witness :
    (StrBuf.mk [0x41, 0x00, 0xAA, 0xAA] 1 4 0).len < (StrBuf.mk [0x41, 0x00, 0xAA, 0xAA] 1 4 0).cap ∧
      (StrBuf.mk [0x41, 0x00, 0xAA, 0xAA] 1 4 0).data.length =
        (StrBuf.mk [0x41, 0x00, 0xAA, 0xAA] 1 4 0).cap ∧
      (append_buf (fun _ => 0xAA) (StrBuf.mk [0x41, 0x00, 0xAA, 0xAA] 1 4 0) 0x42).len =
        (StrBuf.mk [0x41, 0x00, 0xAA, 0xAA] 1 4 0).len + 1 ∧
      (append_buf (fun _ => 0xAA) (StrBuf.mk [0x41, 0x00, 0xAA, 0xAA] 1 4 0) 0x42).data[
        (StrBuf.mk [0x41, 0x00, 0xAA, 0xAA] 1 4 0).len]? = some 0x42 :=
  ⟨by decide, by decide,
    (append_buf_postcondition (fun _ => 0xAA) (StrBuf.mk [0x41, 0x00, 0xAA, 0xAA] 1 4 0) 0x42
      (by decide) (by decide)).1,
    (append_buf_postcondition (fun _ => 0xAA) (StrBuf.mk [0x41, 0x00, 0xAA, 0xAA] 1 4 0) 0x42
      (by decide) (by decide)).2.2.1⟩

/-- C18 (frame of `reset_buf`).  For every buffer, after `reset_buf` the length
is 0, while the capacity, the size of the storage and `start_offset` are what
they were; the storage is touched at index 0 only, where the terminator is
written. -/
theorem reset_buf_frame (b : StrBuf) :
    (reset_buf b).len = 0 ∧ (reset_buf b).cap = b.cap ∧
      (reset_buf b).start_offset = b.start_offset ∧
      (reset_buf b).data.length = b.data.length ∧
      (∀ j, (reset_buf b).data[j + 1]? = b.data[j + 1]?) ∧
      (∀ x, (reset_buf b).data[0]? = some x → x = 0) := by
  refine ⟨rfl, rfl, rfl, ?_, ?_, ?_⟩
  · show (b.data.set 0 0).length = _
    rw [List.length_set]
  · intro j
    show (b.data.set 0 0)[j + 1]? = _
    rw [List.getElem?_set_ne (by omega)]
  · intro x hj
    have hj2 : (b.data.set 0 0)[0]? = some x := hj
    rw [List.getElem?_set] at hj2
    simp only [if_true] at hj2
    split_ifs at hj2
    exact (Option.some.inj hj2).symm

/-! ## States in the course of a scan -/

/-- The scan of a stream passes through the state after each of its initial
segments: if the chunks read so far and to come concatenate to `p ++ q`, the read
loop ends in the state reached from `state_after p` by the bytes `q`. -/
theorem scan_loop_through_state_after (fresh : Nat → Nat) (cfg : Config)
    (reads : List (List Nat)) (hc : ∀ r ∈ reads, r ≠ []) (p q : List Nat)
    (h : reads.flatten = p ++ q) :
    scan_loop fresh cfg reads =
      for_loop (loop_body fresh cfg) 0 p.length q (state_after fresh cfg p) := by
  rw [scan_loop_eq fresh cfg reads hc, h, for_loop_append]
  simp [state_after]

theorem state_after_snoc (fresh : Nat → Nat) (cfg : Config) (p : List Nat) (b : Nat) :
    state_after fresh cfg (p ++ [b]) = loop_body fresh cfg (state_after fresh cfg p) b p.length := by
  unfold state_after
  rw [for_loop_snoc]

theorem state_after_ascii_sim (fresh : Nat → Nat) (cfg : Config) (p : List Nat) :
    AsciiSim (state_after fresh cfg p) (ascii_track_run (to_size_t cfg.min_len) p) :=
  for_loop_rel AsciiSim _ _ (loop_body_ascii_sim fresh cfg) 0 _ 0 _ _
    (initial_state_ascii_sim fresh)

theorem state_after_pair_sim (fresh : Nat → Nat) (cfg : Config) (p : List Nat) :
    PairSim (state_after fresh cfg p) (pair_track_run (to_size_t cfg.min_len) p) :=
  for_loop_rel PairSim _ _ (loop_body_pair_sim fresh cfg) 0 _ 0 _ _
    (initial_state_pair_sim fresh)

/-- The candidate of the single-byte reference track does not depend on the
threshold. -/
theorem ascii_track_run_threshold (m : Nat) (p : List Nat) :
    (ascii_track_run m p).cand = (ascii_track_run 1 p).cand ∧
      (ascii_track_run m p).start = (ascii_track_run 1 p).start := by
  unfold ascii_track_run
  apply for_loop_rel (fun a a2 : AsciiTrack => a.cand = a2.cand ∧ a.start = a2.start)
  · intro a a2 b pos ⟨h1, h2⟩
    cases hpr : is_printable b
    · rw [ascii_track_step_break m a pos hpr, ascii_track_step_break 1 a2 pos hpr]
      exact ⟨rfl, h2⟩
    · rw [ascii_track_step_printable m a pos hpr, ascii_track_step_printable 1 a2 pos hpr]
      refine ⟨?_, ?_⟩
      · show a.cand ++ [b] = a2.cand ++ [b]
        rw [h1]
      · show (if a.cand.length = 0 then pos else a.start) =
          (if a2.cand.length = 0 then pos else a2.start)
        rw [h1, h2]
  · exact ⟨rfl, rfl⟩

/-- The machine state and candidate of the two-byte reference track do not
depend on the threshold. -/
theorem pair_track_run_threshold (m : Nat) (p : List Nat) :
    (pair_track_run m p).state = (pair_track_run 1 p).state ∧
      (pair_track_run m p).pending_char = (pair_track_run 1 p).pending_char ∧
      (pair_track_run m p).pending_start = (pair_track_run 1 p).pending_start ∧
      (pair_track_run m p).cand = (pair_track_run 1 p).cand ∧
      (pair_track_run m p).start = (pair_track_run 1 p).start := by
  unfold pair_track_run
  apply for_loop_rel (fun u u2 : PairTrack => u.state = u2.state ∧
    u.pending_char = u2.pending_char ∧ u.pending_start = u2.pending_start ∧
    u.cand = u2.cand ∧ u.start = u2.start)
  · intro u u2 b pos ⟨h1, h2, h3, h4, h5⟩
    by_cases h0 : u.state = 0
    · have h02 : u2.state = 0 := by rw [← h1]; exact h0
      cases hpr : is_printable b
      · rw [pair_track_step_break m u pos h0 hpr, pair_track_step_break 1 u2 pos h02 hpr]
        exact ⟨h1, h2, h3, rfl, h5⟩
      · rw [pair_track_step_pend m u pos h0 hpr, pair_track_step_pend 1 u2 pos h02 hpr]
        exact ⟨rfl, rfl, rfl, h4, h5⟩
    · have h02 : u2.state ≠ 0 := by rw [← h1]; exact h0
      by_cases hz : b = 0
      · rw [pair_track_step_confirm m u pos h0 hz, pair_track_step_confirm 1 u2 pos h02 hz]
        refine ⟨rfl, h2, h3, ?_, ?_⟩
        · show u.cand ++ [u.pending_char] = u2.cand ++ [u2.pending_char]
          rw [h4, h2]
        · show (if u.cand.length = 0 then u.pending_start else u.start) =
            (if u2.cand.length = 0 then u2.pending_start else u2.start)
          rw [h4, h3, h5]
      · cases hpr : is_printable b
        · rw [pair_track_step_fail_break m u pos h0 hz hpr,
            pair_track_step_fail_break 1 u2 pos h02 hz hpr]
          exact ⟨rfl, h2, h3, rfl, h5⟩
        · rw [pair_track_step_fail_pend m u pos h0 hz hpr,
            pair_track_step_fail_pend 1 u2 pos h02 hz hpr]
          exact ⟨rfl, rfl, rfl, rfl, h5⟩
  · exact ⟨rfl, rfl, rfl, rfl, rfl⟩

/-- What the state after the bytes `p` holds on the single-byte track: the text
in the buffer is the longest printable tail of `p`, and when it is not empty its
start offset is where that tail begins. -/
theorem state_after_ascii (fresh : Nat → Nat) (cfg : Config) (p : List Nat) :
    ∃ t, BufHolds (state_after fresh cfg p).ascii_buf t ∧ IsPrintableTail p t ∧
      (t ≠ [] → (state_after fresh cfg p).ascii_buf.start_offset + t.length = p.length) := by
  obtain ⟨hb, hs, -, -⟩ := state_after_ascii_sim fresh cfg p
  obtain ⟨hc, hst⟩ := ascii_track_run_threshold (to_size_t cfg.min_len) p
  obtain ⟨hT, hS, -⟩ := ascii_inv_run (Nat.le_refl 1) p
  refine ⟨_, hb, ?_, ?_⟩
  · rw [hc]; exact hT
  · rw [hs, hc, hst]; exact hS

/-- What the state after the bytes `p` holds on the two-byte track. -/
theorem state_after_pair (fresh : Nat → Nat) (cfg : Config) (p : List Nat) :
    ∃ t e, BufHolds (state_after fresh cfg p).utf16_buf t ∧
      ((state_after fresh cfg p).utf16_state = 0 ∨ (state_after fresh cfg p).utf16_state = 1) ∧
      ((state_after fresh cfg p).utf16_state = 0 →
        e = p.length ∧ ∀ j, j + 1 = p.length → printable_at p j = false) ∧
      ((state_after fresh cfg p).utf16_state ≠ 0 →
        e + 1 = p.length ∧ p[e]? = some (state_after fresh cfg p).utf16_pending_char ∧
        is_printable (state_after fresh cfg p).utf16_pending_char = true ∧
        (state_after fresh cfg p).utf16_pending_start = e) ∧
      IsPairTail p e t ∧
      (t ≠ [] → (state_after fresh cfg p).utf16_buf.start_offset + 2 * t.length = e) := by
  obtain ⟨hb, hs, -, hst, hpc, hps, -, -⟩ := state_after_pair_sim fresh cfg p
  obtain ⟨h1, h2, h3, h4, h5⟩ := pair_track_run_threshold (to_size_t cfg.min_len) p
  obtain ⟨e, i1, i2, i3, i4, i5, -⟩ := pair_inv_run (Nat.le_refl 1) p
  refine ⟨_, e, hb, ?_, ?_, ?_, ?_, ?_⟩
  · rw [hst, h1]; exact i1
  · rw [hst, h1]; exact i2
  · rw [hst, h1, hpc, h2, hps, h3]; exact i3
  · rw [h4]; exact i4
  · rw [hs, h4, h5]; exact i5

theorem append_buf_len (fresh : Nat → Nat) (b : StrBuf) (ch : Nat) :
    (append_buf fresh b ch).len = b.len + 1 := by
  by_cases hfull : b.len + 1 ≥ b.cap
  · rw [append_buf_of_full fresh b ch hfull]
  · rw [append_buf_of_room fresh b ch hfull]

theorem utf16_logic_ascii_buf (fresh : Nat → Nat) (cfg : Config) (s : ScanState) (b pos : Nat) :
    (utf16_logic fresh cfg s b pos).ascii_buf = s.ascii_buf := by
  by_cases h0 : s.utf16_state = 0
  · cases hpr : is_printable b
    · rw [utf16_logic_break fresh cfg s pos h0 hpr]
    · rw [utf16_logic_pend fresh cfg s pos h0 hpr]
  · by_cases hz : b = 0
    · rw [utf16_logic_confirm fresh cfg s pos h0 hz]
    · cases hpr : is_printable b
      · rw [utf16_logic_fail_break fresh cfg s pos h0 hz hpr]
      · rw [utf16_logic_fail_pend fresh cfg s pos h0 hz hpr]

theorem ascii_logic_utf16 (fresh : Nat → Nat) (cfg : Config) (s : ScanState) (b pos : Nat) :
    (ascii_logic fresh cfg s b pos).utf16_buf = s.utf16_buf ∧
      (ascii_logic fresh cfg s b pos).utf16_state = s.utf16_state ∧
      (ascii_logic fresh cfg s b pos).utf16_pending_char = s.utf16_pending_char ∧
      (ascii_logic fresh cfg s b pos).utf16_pending_start = s.utf16_pending_start := by
  cases hpr : is_printable b
  · rw [ascii_logic_break fresh cfg s pos hpr]
    exact ⟨rfl, rfl, rfl, rfl⟩
  · rw [ascii_logic_printable fresh cfg s pos hpr]
    exact ⟨rfl, rfl, rfl, rfl⟩

/-- One step of the single-byte track writes `start_offset` only when it appends
to an empty candidate; the value written is the current offset. -/
theorem ascii_start_offset_step (fresh : Nat → Nat) (cfg : Config) (st : ScanState)
    (b pos : Nat)
    (h : (loop_body fresh cfg st b pos).ascii_buf.start_offset ≠ st.ascii_buf.start_offset) :
    st.ascii_buf.len = 0 ∧ (loop_body fresh cfg st b pos).ascii_buf.len = 1 ∧
      (loop_body fresh cfg st b pos).ascii_buf.start_offset = pos := by
  unfold loop_body at h ⊢
  rw [utf16_logic_ascii_buf] at h ⊢
  cases hpr : is_printable b
  · rw [ascii_logic_break fresh cfg st pos hpr] at h
    exact absurd rfl h
  · rw [ascii_logic_printable fresh cfg st pos hpr] at h ⊢
    have h2 : (append_buf fresh (if st.ascii_buf.len = 0 then
        { st.ascii_buf with start_offset := pos } else st.ascii_buf) b).start_offset ≠
        st.ascii_buf.start_offset := h
    show st.ascii_buf.len = 0 ∧ (append_buf fresh (if st.ascii_buf.len = 0 then
        { st.ascii_buf with start_offset := pos } else st.ascii_buf) b).len = 1 ∧
        (append_buf fresh (if st.ascii_buf.len = 0 then
        { st.ascii_buf with start_offset := pos } else st.ascii_buf) b).start_offset = pos
    rw [append_buf_start_offset] at h2 ⊢
    rw [append_buf_len]
    by_cases hl : st.ascii_buf.len = 0
    · rw [if_pos hl] at h2 ⊢
      exact ⟨hl, by show st.ascii_buf.len + 1 = 1; omega, rfl⟩
    · rw [if_neg hl] at h2
      exact absurd rfl h2

/-- One step of the two-byte track writes `start_offset` only when it appends to
an empty candidate; the value written is the offset of the pending byte. -/
theorem utf16_start_offset_step (fresh : Nat → Nat) (cfg : Config) (st : ScanState)
    (b pos : Nat)
    (h : (loop_body fresh cfg st b pos).utf16_buf.start_offset ≠ st.utf16_buf.start_offset) :
    st.utf16_buf.len = 0 ∧ (loop_body fresh cfg st b pos).utf16_buf.len = 1 ∧
      (loop_body fresh cfg st b pos).utf16_buf.start_offset = st.utf16_pending_start := by
  obtain ⟨e1, e2, e3, e4⟩ := ascii_logic_utf16 fresh cfg st b pos
  unfold loop_body at h ⊢
  generalize ascii_logic fresh cfg st b pos = s1 at h e1 e2 e3 e4 ⊢
  rw [← e1] at h
  rw [← e1, ← e4]
  by_cases h0 : s1.utf16_state = 0
  · cases hpr : is_printable b
    · rw [utf16_logic_break fresh cfg s1 pos h0 hpr] at h
      exact absurd rfl h
    · rw [utf16_logic_pend fresh cfg s1 pos h0 hpr] at h
      exact absurd rfl h
  · by_cases hz : b = 0
    · rw [utf16_logic_confirm fresh cfg s1 pos h0 hz] at h ⊢
      have h2 : (append_buf fresh (if s1.utf16_buf.len = 0 then
          { s1.utf16_buf with start_offset := s1.utf16_pending_start } else s1.utf16_buf)
          s1.utf16_pending_char).start_offset ≠ s1.utf16_buf.start_offset := h
      show s1.utf16_buf.len = 0 ∧ (append_buf fresh (if s1.utf16_buf.len = 0 then
          { s1.utf16_buf with start_offset := s1.utf16_pending_start } else s1.utf16_buf)
          s1.utf16_pending_char).len = 1 ∧
        (append_buf fresh (if s1.utf16_buf.len = 0 then
          { s1.utf16_buf with start_offset := s1.utf16_pending_start } else s1.utf16_buf)
          s1.utf16_pending_char).start_offset = s1.utf16_pending_start
      rw [append_buf_start_offset] at h2 ⊢
      rw [append_buf_len]
      by_cases hl : s1.utf16_buf.len = 0
      · rw [if_pos hl] at h2 ⊢
        exact ⟨hl, by show s1.utf16_buf.len + 1 = 1; omega, rfl⟩
      · rw [if_neg hl] at h2
        exact absurd rfl h2
    · cases hpr : is_printable b
      · rw [utf16_logic_fail_break fresh cfg s1 pos h0 hz hpr] at h
        exact absurd rfl h
      · rw [utf16_logic_fail_pend fresh cfg s1 pos h0 hz hpr] at h
        exact absurd rfl h

/-- C15 (the `start_offset` invariant).  On both tracks a step of the scan
changes `start_offset` only when it appends to an empty candidate, which then
has length 1 (the value written being the current offset on the single-byte
track and the offset of the pending byte on the two-byte track); so later
appends, and resets, leave it as it is.  Consequently, after any bytes `p` of the
stream: when the single-byte candidate is not empty its `start_offset` is
`p.length - len`; when the two-byte candidate is not empty its `start_offset` is
the offset of the printable byte of its first confirmed pair, that byte being
the first character of the candidate and followed by `0x00`, and the candidate
ends where the unpaired bytes begin. -/
theorem start_offset_invariant (fresh : Nat → Nat) (cfg : Config) (p : List Nat) :
    (∀ (st : ScanState) (b pos : Nat),
        (loop_body fresh cfg st b pos).ascii_buf.start_offset ≠ st.ascii_buf.start_offset →
        st.ascii_buf.len = 0 ∧ (loop_body fresh cfg st b pos).ascii_buf.len = 1 ∧
          (loop_body fresh cfg st b pos).ascii_buf.start_offset = pos) ∧
      (∀ (st : ScanState) (b pos : Nat),
        (loop_body fresh cfg st b pos).utf16_buf.start_offset ≠ st.utf16_buf.start_offset →
        st.utf16_buf.len = 0 ∧ (loop_body fresh cfg st b pos).utf16_buf.len = 1 ∧
          (loop_body fresh cfg st b pos).utf16_buf.start_offset = st.utf16_pending_start) ∧
      ((state_after fresh cfg p).ascii_buf.len ≠ 0 →
        (state_after fresh cfg p).ascii_buf.start_offset =
          p.length - (state_after fresh cfg p).ascii_buf.len) ∧
      ((state_after fresh cfg p).utf16_buf.len ≠ 0 →
        ∃ ch, p[(state_after fresh cfg p).utf16_buf.start_offset]? = some ch ∧
          is_printable ch = true ∧
          p[(state_after fresh cfg p).utf16_buf.start_offset + 1]? = some 0 ∧
          (c_str (state_after fresh cfg p).utf16_buf.data)[0]? = some ch ∧
          (state_after fresh cfg p).utf16_buf.start_offset +
            2 * (state_after fresh cfg p).utf16_buf.len +
            (state_after fresh cfg p).utf16_state = p.length) := by
  refine ⟨ascii_start_offset_step fresh cfg, utf16_start_offset_step fresh cfg, ?_, ?_⟩
  · intro hne
    obtain ⟨t, hb, -, hS⟩ := state_after_ascii fresh cfg p
    have hlen : (state_after fresh cfg p).ascii_buf.len = t.length := hb.2.2.1
    have htne : t ≠ [] := by
      intro h0
      rw [h0] at hlen
      exact hne hlen
    have := hS htne
    omega
  · intro hne
    obtain ⟨t, e, hb, hst, h0, h1, hT, hS⟩ := state_after_pair fresh cfg p
    have hlen : (state_after fresh cfg p).utf16_buf.len = t.length := hb.2.2.1
    have htne : t ≠ [] := by
      intro h0
      rw [h0] at hlen
      exact hne hlen
    have hs := hS htne
    have hpos : 0 < t.length := List.length_pos.2 htne
    obtain ⟨ch, hch1, hch2⟩ := getElem?_of_lt hpos
    have hcont := hT.2.2.1 (state_after fresh cfg p).utf16_buf.start_offset 0 (by omega) hpos
    rw [hch1] at hcont
    refine ⟨ch, hcont.1, hT.2.2.2.1 ch hch2, hcont.2, ?_, ?_⟩
    · rw [c_str_of_holds hb]
      exact hch1
    · rcases hst with hz | ho
      · have := (h0 hz).1
        omega
      · have := (h1 (by omega)).1
        omega

/-- C16 (the pending-character invariant).  After any non-empty part `p` of the
stream, with last byte `x`: the two-byte machine is in state 0 or 1; it is in
`ExpectNull` (state 1) exactly when `x` is printable; and then the pending
character is `x`, the pending offset is that of `x`, and `x` is no character of
the candidate: every character of the candidate is the stream byte at an offset
`start_offset + 2j` whose null partner still comes before the pending offset. -/
theorem pending_char_invariant (fresh : Nat → Nat) (cfg : Config) (p : List Nat) (x : Nat)
    (hx : p.getLast? = some x) :
    ((state_after fresh cfg p).utf16_state = 0 ∨ (state_after fresh cfg p).utf16_state = 1) ∧
      ((state_after fresh cfg p).utf16_state = 1 ↔ is_printable x = true) ∧
      ((state_after fresh cfg p).utf16_state = 1 →
        (state_after fresh cfg p).utf16_pending_char = x ∧
        (state_after fresh cfg p).utf16_pending_start + 1 = p.length ∧
        ∀ j, j < (state_after fresh cfg p).utf16_buf.len →
          (state_after fresh cfg p).utf16_buf.start_offset + 2 * j + 1 <
              (state_after fresh cfg p).utf16_pending_start ∧
            p[(state_after fresh cfg p).utf16_buf.start_offset + 2 * j]? =
              (c_str (state_after fresh cfg p).utf16_buf.data)[j]?) := by
  obtain ⟨t, e, hb, hst, h0, h1, hT, hS⟩ := state_after_pair fresh cfg p
  have hlen : (state_after fresh cfg p).utf16_buf.len = t.length := hb.2.2.1
  have hlast : p[p.length - 1]? = some x := by
    rw [List.getLast?_eq_getElem?] at hx
    exact hx
  have hpos : 0 < p.length := by
    have := lt_length_of_getElem? hlast
    omega
  have hone : (state_after fresh cfg p).utf16_state = 1 →
      (state_after fresh cfg p).utf16_pending_char = x ∧ e + 1 = p.length ∧
      is_printable x = true ∧ (state_after fresh cfg p).utf16_pending_start = e := by
    intro hs1
    obtain ⟨he, hpc, hpp, hps⟩ := h1 (by omega)
    have hee : e = p.length - 1 := by omega
    rw [hee, hlast] at hpc
    have hxe := Option.some.inj hpc
    rw [← hxe] at hpp
    exact ⟨hxe.symm, he, hpp, hps⟩
  refine ⟨hst, ⟨fun hs1 => (hone hs1).2.2.1, fun hpx => ?_⟩, fun hs1 => ?_⟩
  · rcases hst with hz | ho
    · have := (h0 hz).2 (p.length - 1) (by omega)
      rw [printable_at_of_get hlast, hpx] at this
      exact Bool.noConfusion this
    · exact ho
  · obtain ⟨hpc, he, -, hps⟩ := hone hs1
    refine ⟨hpc, by omega, fun j hj => ?_⟩
    rw [hlen] at hj
    have htne : t ≠ [] := by
      intro h0
      rw [h0] at hj
      exact Nat.not_lt_zero _ hj
    have hs := hS htne
    refine ⟨by omega, ?_⟩
    rw [c_str_of_holds hb]
    exact (hT.2.2.1 _ j (by omega) hj).1

/-- Witness for C16: after `A 00 B 00 C` the machine is in state 1 with `C`
pending at offset 4. -/
theorem pending_char_invariant_witness :
    ([0x41, 0x00, 0x42, 0x00, 0x43] : List Nat).getLast? = some 0x43 ∧
      ((state_after (fun _ => 0xAA) (Config.mk 4 0 false)
          [0x41, 0x00, 0x42, 0x00, 0x43]).utf16_state = 1 ↔ is_printable 0x43 = true) :=
  ⟨by decide,
    (pending_char_invariant (fun _ => 0xAA) (Config.mk 4 0 false)
      [0x41, 0x00, 0x42, 0x00, 0x43] 0x43 (by decide)).2.1⟩

/-! ## Well-formed buffers -/

theorem for_loop_inv {σ : Type} (P : σ → Prop) (f : σ → Nat → Nat → σ)
    (h : ∀ s b pos, P s → P (f s b pos)) (g : Nat) (p : List Nat) (i : Nat) (s : σ) (hs : P s) :
    P (for_loop f g i p s) :=
  for_loop_rel (fun s (_ : Unit) => P s) f (fun t _ _ => t) (fun s _ b pos hP => h s b pos hP)
    g p i s () hs

theorem append_buf_cap (fresh : Nat → Nat) (b : StrBuf) (ch : Nat)
    (h : ∃ k, b.cap = 128 * 2 ^ k) : ∃ k, (append_buf fresh b ch).cap = 128 * 2 ^ k := by
  obtain ⟨k, hk⟩ := h
  by_cases hfull : b.len + 1 ≥ b.cap
  · rw [append_buf_of_full fresh b ch hfull]
    exact ⟨k + 1, by show b.cap * 2 = _; rw [hk, pow_succ, Nat.mul_assoc]⟩
  · rw [append_buf_of_room fresh b ch hfull]
    exact ⟨k, hk⟩

theorem loop_body_cap (fresh : Nat → Nat) (cfg : Config) (s : ScanState) (b pos : Nat)
    (h : (∃ k, s.ascii_buf.cap = 128 * 2 ^ k) ∧ (∃ k, s.utf16_buf.cap = 128 * 2 ^ k)) :
    (∃ k, (loop_body fresh cfg s b pos).ascii_buf.cap = 128 * 2 ^ k) ∧
      (∃ k, (loop_body fresh cfg s b pos).utf16_buf.cap = 128 * 2 ^ k) := by
  obtain ⟨ha, hu⟩ := h
  have ha1 : ∃ k, (ascii_logic fresh cfg s b pos).ascii_buf.cap = 128 * 2 ^ k := by
    cases hpr : is_printable b
    · rw [ascii_logic_break fresh cfg s pos hpr]
      exact ha
    · rw [ascii_logic_printable fresh cfg s pos hpr]
      apply append_buf_cap
      by_cases hl : s.ascii_buf.len = 0
      · rw [if_pos hl]; exact ha
      · rw [if_neg hl]; exact ha
  obtain ⟨e1, -, -, -⟩ := ascii_logic_utf16 fresh cfg s b pos
  unfold loop_body
  rw [utf16_logic_ascii_buf]
  refine ⟨ha1, ?_⟩
  rw [← e1] at hu
  generalize ascii_logic fresh cfg s b pos = s1 at hu
  by_cases h0 : s1.utf16_state = 0
  · cases hpr : is_printable b
    · rw [utf16_logic_break fresh cfg s1 pos h0 hpr]
      exact hu
    · rw [utf16_logic_pend fresh cfg s1 pos h0 hpr]
      exact hu
  · by_cases hz : b = 0
    · rw [utf16_logic_confirm fresh cfg s1 pos h0 hz]
      apply append_buf_cap
      by_cases hl : s1.utf16_buf.len = 0
      · rw [if_pos hl]; exact hu
      · rw [if_neg hl]; exact hu
    · cases hpr : is_printable b
      · rw [utf16_logic_fail_break fresh cfg s1 pos h0 hz hpr]
        exact hu
      · rw [utf16_logic_fail_pend fresh cfg s1 pos h0 hz hpr]
        exact hu

theorem state_after_cap (fresh : Nat → Nat) (cfg : Config) (p : List Nat) :
    (∃ k, (state_after fresh cfg p).ascii_buf.cap = 128 * 2 ^ k) ∧
      (∃ k, (state_after fresh cfg p).utf16_buf.cap = 128 * 2 ^ k) :=
  for_loop_inv _ _ (loop_body_cap fresh cfg) 0 p 0 _ ⟨⟨0, rfl⟩, ⟨0, rfl⟩⟩

theorem buf_ok_of_holds {b : StrBuf} {t : List Nat} (h : BufHolds b t)
    (hp : ∀ x ∈ t, is_printable x = true) (hcap : ∃ k, b.cap = 128 * 2 ^ k) : StrBufOK b := by
  obtain ⟨⟨rest, hd⟩, hl, hlen, -⟩ := h
  refine ⟨hl, ?_, hcap, ?_, ?_⟩
  · rw [← hl, hd, hlen]
    simp
  · rw [hd, hlen, List.getElem?_append_right (Nat.le_refl _), Nat.sub_self]
    simp
  · intro j hj
    rw [hlen] at hj
    obtain ⟨ch, hc1, hc2⟩ := getElem?_of_lt hj
    refine ⟨ch, ?_, (is_printable_iff ch).1 (hp ch hc2)⟩
    rw [hd, List.getElem?_append_left hj]
    exact hc1

theorem holds_of_buf_ok {b : StrBuf} (h : StrBufOK b) :
    BufHolds b (b.data.take b.len) ∧ ∀ x ∈ b.data.take b.len, is_printable x = true := by
  obtain ⟨hl, hle, -, hz, hpr⟩ := h
  have hlt : b.len < b.data.length := by omega
  have htl : (b.data.take b.len).length = b.len := by
    rw [List.length_take]
    omega
  have hmem : ∀ x ∈ b.data.take b.len, is_printable x = true := by
    intro x hx
    obtain ⟨j, hj, hjx⟩ := List.getElem_of_mem hx
    rw [htl] at hj
    obtain ⟨ch, h1, h2⟩ := hpr j hj
    have h3 : (b.data.take b.len)[j]? = some x := by
      rw [List.getElem?_eq_getElem (by rw [htl]; exact hj)]
      exact congrArg some hjx
    rw [List.getElem?_take, if_pos hj, h1] at h3
    rw [← Option.some.inj h3]
    exact (is_printable_iff ch).2 h2
  refine ⟨⟨⟨b.data.drop (b.len + 1), ?_⟩, hl, htl.symm, fun x hx => is_printable_ne_zero (hmem x hx)⟩,
    hmem⟩
  have h0 : b.data[b.len] = 0 := by
    rw [List.getElem?_eq_getElem hlt] at hz
    exact Option.some.inj hz
  have hdrop : b.data.drop b.len = 0 :: b.data.drop (b.len + 1) := by
    rw [List.drop_eq_getElem_cons hlt, h0]
  rw [← hdrop, List.take_append_drop]

/-- C19 (well-formedness of the accumulators).  The buffer made by `init_buf` is
well formed; `append_buf` of a printable character and `reset_buf` keep a buffer
well formed; hence both buffers of `process_file` are well formed after any
bytes of the stream: the storage has `cap` cells, `len + 1 ≤ cap` (so the writes
at `len` and `len + 1` of `append_buf`, after its growth step, and at 0 of
`reset_buf` are in bounds), `cap` is `128 * 2^k`, the cell at `len` is the
terminator and every cell below `len` is in `0x20 .. 0x7E`.  The string that
`print_match` prints from a well-formed buffer has exactly `len` characters, none
of them zero. -/
theorem buffer_well_formed (fresh : Nat → Nat) :
    StrBufOK (init_buf fresh) ∧
      (∀ (b : StrBuf) (ch : Nat), StrBufOK b → is_printable ch = true →
        StrBufOK (append_buf fresh b ch)) ∧
      (∀ b : StrBuf, StrBufOK b → StrBufOK (reset_buf b)) ∧
      (∀ (cfg : Config) (p : List Nat),
        StrBufOK (state_after fresh cfg p).ascii_buf ∧
          StrBufOK (state_after fresh cfg p).utf16_buf) ∧
      (∀ (b : StrBuf) (t : Track), StrBufOK b →
        (print_match t b).text.length = b.len ∧ (print_match t b).text = b.data.take b.len ∧
          ∀ x ∈ (print_match t b).text, x ≠ 0) := by
  refine ⟨?_, ?_, ?_, ?_, ?_⟩
  · exact buf_ok_of_holds (init_buf_holds fresh) (fun x hx => by simp at hx) ⟨0, rfl⟩
  · intro b ch hb hch
    obtain ⟨hh, hp⟩ := holds_of_buf_ok hb
    apply buf_ok_of_holds (append_buf_holds fresh ch hh (is_printable_ne_zero hch))
    · intro x hx
      rcases List.mem_append.1 hx with hx | hx
      · exact hp x hx
      · simp at hx; subst hx; exact hch
    · exact append_buf_cap fresh b ch hb.2.2.1
  · intro b hb
    obtain ⟨hh, -⟩ := holds_of_buf_ok hb
    exact buf_ok_of_holds (reset_buf_holds hh) (fun x hx => by simp at hx) hb.2.2.1
  · intro cfg p
    obtain ⟨hca, hcu⟩ := state_after_cap fresh cfg p
    obtain ⟨hba, -, -, hpa⟩ := state_after_ascii_sim fresh cfg p
    obtain ⟨hbu, -, -, -, -, -, hpu, -⟩ := state_after_pair_sim fresh cfg p
    exact ⟨buf_ok_of_holds hba hpa hca, buf_ok_of_holds hbu hpu hcu⟩
  · intro b t hb
    obtain ⟨hh, hp⟩ := holds_of_buf_ok hb
    rw [print_match_of_holds t hh]
    refine ⟨hh.2.2.1.symm, rfl, fun x hx => is_printable_ne_zero (hp x hx)⟩

/-! ## The threshold as an output filter -/

theorem while_loop_rel {σ τ : Type} (R : σ → τ → Prop) (f : σ → Nat → Nat → σ)
    (k : τ → Nat → Nat → τ) (h : ∀ s t b pos, R s t → R (f s b pos) (k t b pos)) :
    ∀ (reads : List (List Nat)) (g : Nat) (s : σ) (t : τ), R s t →
      R (while_loop f reads g s) (while_loop k reads g t)
  | [], _, _, _, hR => by simpa [while_loop] using hR
  | r :: reads, g, s, t, hR => by
    simp only [while_loop]
    by_cases hr : r.length > 0
    · rw [if_pos hr, if_pos hr]
      exact while_loop_rel R f k h reads _ _ _ (for_loop_rel R f k h g r 0 s t hR)
    · rw [if_neg hr, if_neg hr]
      exact hR

theorem emit_filter (tr : Track) {buf : StrBuf} {t : List Nat} (hb : BufHolds buf t) {m : Int}
    (hm : 1 ≤ m) (out : List Match) :
    (if buf.len ≥ to_size_t m then
        out.filter (fun x => decide (m ≤ (x.text.length : Int))) ++ [print_match tr buf]
      else out.filter (fun x => decide (m ≤ (x.text.length : Int)))) =
      (if buf.len ≥ to_size_t 1 then out ++ [print_match tr buf] else out).filter
        (fun x => decide (m ≤ (x.text.length : Int))) := by
  have hlen : buf.len = t.length := hb.2.2.1
  have htext : (print_match tr buf).text.length = buf.len := by
    rw [print_match_of_holds tr hb]
    exact hlen.symm
  have h1 : to_size_t 1 = 1 := rfl
  by_cases hge : buf.len ≥ to_size_t m
  · have hge1 : buf.len ≥ to_size_t 1 := by
      have := (to_size_t_of_pos hm).2
      omega
    have hp : m ≤ ((print_match tr buf).text.length : Int) := by
      rw [htext]
      exact (min_len_le_iff hm _).1 hge
    rw [if_pos hge, if_pos hge1, List.filter_append]
    simp [hp]
  · have hp : ¬ m ≤ ((print_match tr buf).text.length : Int) := by
      rw [htext]
      exact fun h => hge ((min_len_le_iff hm _).2 h)
    rw [if_neg hge]
    by_cases hge1 : buf.len ≥ to_size_t 1
    · rw [if_pos hge1, List.filter_append]
      simp [hp]
    · rw [if_neg hge1]

theorem ascii_logic_filter (fresh : Nat → Nat) (cfg : Config) {m : Int} (hm : 1 ≤ m)
    (s : ScanState) (b pos : Nat) {t : List Nat} (hb : BufHolds s.ascii_buf t) :
    ascii_logic fresh { cfg with min_len := m }
        { s with out := s.out.filter (fun x => decide (m ≤ (x.text.length : Int))) } b pos =
      { ascii_logic fresh { cfg with min_len := 1 } s b pos with
        out := (ascii_logic fresh { cfg with min_len := 1 } s b pos).out.filter
          (fun x => decide (m ≤ (x.text.length : Int))) } := by
  cases hpr : is_printable b
  · rw [ascii_logic_break fresh _ _ pos hpr, ascii_logic_break fresh _ _ pos hpr]
    have := emit_filter Track.ascii hb hm s.out
    simp only [this]
  · rw [ascii_logic_printable fresh _ _ pos hpr, ascii_logic_printable fresh _ _ pos hpr]

theorem utf16_logic_filter (fresh : Nat → Nat) (cfg : Config) {m : Int} (hm : 1 ≤ m)
    (s : ScanState) (b pos : Nat) {t : List Nat} (hb : BufHolds s.utf16_buf t) :
    utf16_logic fresh { cfg with min_len := m }
        { s with out := s.out.filter (fun x => decide (m ≤ (x.text.length : Int))) } b pos =
      { utf16_logic fresh { cfg with min_len := 1 } s b pos with
        out := (utf16_logic fresh { cfg with min_len := 1 } s b pos).out.filter
          (fun x => decide (m ≤ (x.text.length : Int))) } := by
  have hem := emit_filter Track.utf16 hb hm s.out
  generalize hsf : ({ s with out := s.out.filter (fun x => decide (m ≤ (x.text.length : Int))) } :
    ScanState) = sf
  have e0 : sf.utf16_state = s.utf16_state := by rw [← hsf]
  by_cases h0 : s.utf16_state = 0
  · have h0f : sf.utf16_state = 0 := by rw [e0]; exact h0
    cases hpr : is_printable b
    · rw [utf16_logic_break fresh _ sf pos h0f hpr, utf16_logic_break fresh _ s pos h0 hpr]
      subst hsf
      simp only [hem]
    · rw [utf16_logic_pend fresh _ sf pos h0f hpr, utf16_logic_pend fresh _ s pos h0 hpr]
      subst hsf
      rfl
  · have h0f : sf.utf16_state ≠ 0 := by rw [e0]; exact h0
    by_cases hz : b = 0
    · rw [utf16_logic_confirm fresh _ sf pos h0f hz, utf16_logic_confirm fresh _ s pos h0 hz]
      subst hsf
      rfl
    · cases hpr : is_printable b
      · rw [utf16_logic_fail_break fresh _ sf pos h0f hz hpr,
          utf16_logic_fail_break fresh _ s pos h0 hz hpr]
        subst hsf
        simp only [hem]
      · rw [utf16_logic_fail_pend fresh _ sf pos h0f hz hpr,
          utf16_logic_fail_pend fresh _ s pos h0 hz hpr]
        subst hsf
        simp only [hem]

theorem loop_body_filter (fresh : Nat → Nat) (cfg : Config) {m : Int} (hm : 1 ≤ m)
    (s : ScanState) (b pos : Nat) {a : AsciiTrack} {u : PairTrack} (ha : AsciiSim s a)
    (hu : PairSim s u) :
    loop_body fresh { cfg with min_len := m }
        { s with out := s.out.filter (fun x => decide (m ≤ (x.text.length : Int))) } b pos =
      { loop_body fresh { cfg with min_len := 1 } s b pos with
        out := (loop_body fresh { cfg with min_len := 1 } s b pos).out.filter
          (fun x => decide (m ≤ (x.text.length : Int))) } := by
  unfold loop_body
  rw [ascii_logic_filter fresh cfg hm s b pos ha.1]
  exact utf16_logic_filter fresh cfg hm _ b pos
    (ascii_logic_frame fresh { cfg with min_len := 1 } s u b pos hu).1

theorem cleanup_filter (cfg : Config) {m : Int} (hm : 1 ≤ m) (s : ScanState)
    {a : AsciiTrack} {u : PairTrack} (ha : AsciiSim s a) (hu : PairSim s u) :
    end_of_file_cleanup { cfg with min_len := m }
        { s with out := s.out.filter (fun x => decide (m ≤ (x.text.length : Int))) } =
      (end_of_file_cleanup { cfg with min_len := 1 } s).filter
        (fun x => decide (m ≤ (x.text.length : Int))) := by
  unfold end_of_file_cleanup
  have h1 := emit_filter Track.ascii ha.1 hm s.out
  have h2 := emit_filter Track.utf16 hu.1 hm
    (if s.ascii_buf.len ≥ to_size_t 1 then s.out ++ [print_match Track.ascii s.ascii_buf]
      else s.out)
  simp only [h1]
  exact h2

theorem matches_of_filter (t : Track) (out : List Match) (m : Int) :
    matches_of t (out.filter (fun x => decide (m ≤ (x.text.length : Int)))) =
      (matches_of t out).filter (fun x => decide (m ≤ (x.2.length : Int))) := by
  unfold matches_of
  induction out with
  | nil => rfl
  | cons x out ih =>
    by_cases h1 : m ≤ (x.text.length : Int) <;> by_cases h2 : x.track = t <;>
      simp [List.filter_cons, h1, h2] at ih ⊢ <;> exact ih

/-- C20 (the minimum length is only an output filter).  For every stream, however
it is chunked, and every `m ≥ 1`, the output of `process_file` with
`min_len = m` is the output with `min_len = 1` restricted to the matches whose
text has at least `m` characters, in the same order and with the same offsets;
the same holds for the matches of each track.  So raising `min_len` adds no
match and alters none. -/
theorem min_len_output_filter (fresh : Nat → Nat) (cfg : Config)
    (fp : Option (List (List Nat))) (m : Int) (hm : 1 ≤ m) :
    process_file fresh { cfg with min_len := m } fp =
        (process_file fresh { cfg with min_len := 1 } fp).filter
          (fun x => decide (m ≤ (x.text.length : Int))) ∧
      ∀ t : Track, matches_of t (process_file fresh { cfg with min_len := m } fp) =
        (matches_of t (process_file fresh { cfg with min_len := 1 } fp)).filter
          (fun x => decide (m ≤ (x.2.length : Int))) := by
  have hall : process_file fresh { cfg with min_len := m } fp =
      (process_file fresh { cfg with min_len := 1 } fp).filter
        (fun x => decide (m ≤ (x.text.length : Int))) := by
    cases fp with
    | none => rfl
    | some reads =>
      have hrel := while_loop_rel
        (fun (sm s1 : ScanState) => (∃ a u, AsciiSim s1 a ∧ PairSim s1 u) ∧
          sm = { s1 with out := s1.out.filter (fun x => decide (m ≤ (x.text.length : Int))) })
        (loop_body fresh { cfg with min_len := m }) (loop_body fresh { cfg with min_len := 1 })
        (fun sm s1 b pos hR => by
          obtain ⟨⟨a, u, ha, hu⟩, he⟩ := hR
          refine ⟨⟨_, _, loop_body_ascii_sim fresh _ s1 a b pos ha,
            loop_body_pair_sim fresh _ s1 u b pos hu⟩, ?_⟩
          rw [he]
          exact loop_body_filter fresh cfg hm s1 b pos ha hu)
        reads 0 (initial_state fresh) (initial_state fresh)
        ⟨⟨_, _, initial_state_ascii_sim fresh, initial_state_pair_sim fresh⟩, rfl⟩
      obtain ⟨⟨a, u, ha, hu⟩, he⟩ := hrel
      show end_of_file_cleanup _ (scan_loop fresh _ reads) =
        (end_of_file_cleanup _ (scan_loop fresh _ reads)).filter _
      unfold scan_loop
      rw [he]
      exact cleanup_filter cfg hm _ ha hu
  refine ⟨hall, fun t => ?_⟩
  rw [hall, matches_of_filter]

/-- Witness for C20: the stream `AB 00 CDE 00 F 00` with `m = 3`. -/
theorem min_len_output_filter_witness :
    (1 : Int) ≤ 3 ∧
      process_file (fun _ => 0xAA) { (Config.mk 4 0 false) with min_len := 3 }
          (some [[0x41, 0x42, 0x00, 0x43, 0x44, 0x45, 0x00, 0x46, 0x00]]) =
        (process_file (fun _ => 0xAA) { (Config.mk 4 0 false) with min_len := 1 }
          (some [[0x41, 0x42, 0x00, 0x43, 0x44, 0x45, 0x00, 0x46, 0x00]])).filter
          (fun x => decide ((3 : Int) ≤ (x.text.length : Int))) :=
  ⟨by decide,
    (min_len_output_filter (fun _ => 0xAA) (Config.mk 4 0 false)
      (some [[0x41, 0x42, 0x00, 0x43, 0x44, 0x45, 0x00, 0x46, 0x00]]) 3 (by decide)).1⟩

end Strix
